import Mathlib

/-!
# ModernC-Design: Typelist.h and Functor.h

A shallow embedding of the typelist metafunctions (`2.Techniques/Typelist.h`)
and of the generalized functor (`5.Functor/Functor.h`).

* Template metaprograms become functions on `Ty`, the C++ types that occur as
  template arguments.  A metafunction that has no matching specialisation
  (only the primary template is declared) has no `Result`: it returns `none`.
* `FunctorImpl` objects live on a heap (`Store.impls`); a `Functor` is its
  `std::auto_ptr<Impl> spImpl_`, a nullable address.  `new` appends a cell,
  `delete` empties it.  Calls, copies and destructors follow pointers through
  the heap and therefore take a fuel argument.
* A wrapped callable is its data members and its `operator()`, a function of
  the data members, the argument list and the state outside the library; a
  thrown exception is the result `Except.error`.  The overloads of
  `operator()` for zero, one and two parameters are the argument lists of
  length 0, 1 and 2.  The source writes a third overload in `BinderFirst`
  (`f_(b_, p1, p2)`, with `Parm3`) that needs a ternary `Functor`, which it
  does not declare; the argument list covers it in the same way.
* Arguments and the bound value are passed and stored by value:
  `TypeTraits<T>::ParameterType` is not declared in `TypeTraits.h`.
* Dereferencing or deleting a null or dangling pointer is undefined behaviour,
  the outcome `Res.undefined`.  Allocation failure and callables whose copy
  constructor throws are not modelled.
* `Owns h f t fp` reads the object graph of a functor off the heap as a tree
  `t` occupying the cells `fp`; it is the well-formedness of a functor that the
  library's own constructors, `BindFirst`, `Chain` and the copy constructor
  establish, and the hypothesis under which calls are characterised.
-/

namespace ModernCDesign

/-! ## Typelist.h -/

/-- C++ types as template arguments: `NullType`, `Typelist<T, U>` and any
other type, identified by a number. -/
inductive Ty where
  | NullType : Ty
  | Typelist (T U : Ty) : Ty
  | other (n : Nat) : Ty
deriving DecidableEq

/-- `TYPELIST_1(T1)` is `Typelist<T1, NullType>`. -/
def TYPELIST_1 (T1 : Ty) : Ty := .Typelist T1 .NullType

/-- `TYPELIST_2(T1, T2)` is `Typelist<T1, TYPELIST_1(T2)>`. -/
def TYPELIST_2 (T1 T2 : Ty) : Ty := .Typelist T1 (TYPELIST_1 T2)

/-- `TYPELIST_3(T1, T2, T3)` is `Typelist<T1, TYPELIST_2(T2, T3)>`. -/
def TYPELIST_3 (T1 T2 T3 : Ty) : Ty := .Typelist T1 (TYPELIST_2 T2 T3)

namespace TL

/-- `TL::Length<TList>::value`: 0 for `NullType`, `1 + Length<U>::value` for
`Typelist<T, U>`; no other specialisation exists. -/
def Length : Ty → Option Nat
  | .NullType => some 0
  | .Typelist _ U => (Length U).map (1 + ·)
  | .other _ => none

/-- `TL::TypeAt<TList, index>::Result`: the head at index 0, otherwise
`TypeAt<Tail, i - 1>`; there is no specialisation for `NullType`. -/
def TypeAt : Ty → Nat → Option Ty
  | .Typelist Head _, 0 => some Head
  | .Typelist _ Tail, i + 1 => TypeAt Tail i
  | _, _ => none

/-- `TL::Erase<TList, T>::Result`: `NullType` for `NullType`, the tail when the
head is `T` (the more specialised pattern wins), otherwise the head consed onto
`Erase<Tail, T>::Result`. -/
def Erase : Ty → Ty → Option Ty
  | .NullType, _ => some .NullType
  | .Typelist Head Tail, T =>
    if Head = T then some Tail else (Erase Tail T).map (Ty.Typelist Head)
  | .other _, _ => none

end TL

namespace Private

/-- `Private::BinderFirstTraits<Functor<R, TList, ThreadingModel>>::ParmList`,
that is `TL::Erase<TList, TL::TypeAt<TList, 0>::Result>::Result`. -/
def BinderFirstTraits.ParmList (TList : Ty) : Option Ty :=
  (TL.TypeAt TList 0).bind (TL.Erase TList)

end Private

/-- `Select<flag, T, U>::Result` of `TypeTraits.h`: `T` when `flag` is true,
`U` for the specialisation `Select<false, T, U>`. -/
def Select (flag : Bool) (T U : Ty) : Ty :=
  match flag with
  | true => T
  | false => U

/-- The typelist of the given element types, `NullType`-terminated:
`TYPELIST_n(T1, ..., Tn)`. -/
def Ty.ofList : List Ty → Ty
  | [] => .NullType
  | T :: l => .Typelist T (Ty.ofList l)

namespace TL

/-- `TL::IndexOf<TList, T>::value`: -1 for `NullType`, 0 when the head is `T`,
otherwise `temp == -1 ? -1 : 1 + temp` with `temp = IndexOf<Tail, T>::value`. -/
def IndexOf : Ty → Ty → Option Int
  | .NullType, _ => some (-1)
  | .Typelist Head Tail, T =>
    if Head = T then some 0
    else (IndexOf Tail T).map (fun temp => if temp = -1 then -1 else 1 + temp)
  | .other _, _ => none

/-- `TL::NoDuplicates<TList>::Result`: `NullType` for `NullType`; for
`Typelist<Head, Tail>`, with `L1 = NoDuplicates<Tail>::Result` and
`L2 = Erase<L1, Head>::Result`, the list `Typelist<Head, L2>`. -/
def NoDuplicates : Ty → Option Ty
  | .NullType => some .NullType
  | .Typelist Head Tail =>
    (NoDuplicates Tail).bind fun L1 =>
      (Erase L1 Head).map fun L2 => Ty.Typelist Head L2
  | .other _ => none

/-- `TL::Replace<TList, T, U>::Result`: `NullType` for `NullType`,
`Typelist<U, Tail>` when the head is `T`, otherwise the head consed onto
`Replace<Tail, T, U>::Result`. -/
def Replace : Ty → Ty → Ty → Option Ty
  | .NullType, _, _ => some .NullType
  | .Typelist Head Tail, T, U =>
    if Head = T then some (Ty.Typelist U Tail)
    else (Replace Tail T U).map (Ty.Typelist Head)
  | .other _, _, _ => none

/-- `TL::MostDerived<TList, T>::Result`: `T` for `NullType`; for
`Typelist<Head, Tail>`, with `Candidate = MostDerived<Tail, T>::Result`, the
type `Select<SuperSubclass<Candidate, Head>::value, Head, Candidate>::Result`.
The template `SuperSubclass` is not declared in the sources at hand (only the
macro `SUPERSUBCLASS` is); its value is the parameter `SuperSubclass`. -/
def MostDerived (SuperSubclass : Ty → Ty → Bool) : Ty → Ty → Option Ty
  | .NullType, T => some T
  | .Typelist Head Tail, T =>
    (MostDerived SuperSubclass Tail T).map fun Candidate =>
      Select (SuperSubclass Candidate Head) Head Candidate
  | .other _, _ => none

/-- `TL::DerivedToFront<TList>::Result`: `NullType` for `NullType`; for
`Typelist<Head, Tail>`, with `TheMostDerived = MostDerived<Tail, Head>::Result`,
`Temp = Replace<Tail, TheMostDerived, Head>::Result` and
`L = DerivedToFront<Temp>::Result`, the list `Typelist<TheMostDerived, L>`.
The recursion is on `Temp`, not on a part of the argument; the first argument
bounds the depth of the nested instantiations. -/
def DerivedToFront (SuperSubclass : Ty → Ty → Bool) : Nat → Ty → Option Ty
  | _, .NullType => some .NullType
  | depth + 1, .Typelist Head Tail =>
    (MostDerived SuperSubclass Tail Head).bind fun TheMostDerived =>
      (Replace Tail TheMostDerived Head).bind fun Temp =>
        (DerivedToFront SuperSubclass depth Temp).map fun L =>
          Ty.Typelist TheMostDerived L
  | 0, .Typelist _ _ => none
  | _, .other _ => none

/-- `TL::Append<TList, T>::Result`: `NullType` for `Append<NullType, NullType>`,
the list itself for `Append<NullType, Typelist<Head, Tail>>`, `TYPELIST_1(T)`
for `Append<NullType, T>` with any other `T` (the more specialised patterns
win), and for `Append<Typelist<Head, Tail>, T>` the head consed onto
`Append<Tail, T>::Result`. -/
def Append : Ty → Ty → Option Ty
  | .NullType, .NullType => some .NullType
  | .NullType, .Typelist Head Tail => some (.Typelist Head Tail)
  | .NullType, .other n => some (TYPELIST_1 (.other n))
  | .Typelist Head Tail, T => (Append Tail T).map (Ty.Typelist Head)
  | .other _, _ => none

/-- `TL::EraseAll<TList, T>::Result`: `NullType` for `NullType`,
`EraseAll<Tail, T>::Result` when the head is `T`, otherwise the head consed
onto `EraseAll<Tail, T>::Result`. -/
def EraseAll : Ty → Ty → Option Ty
  | .NullType, _ => some .NullType
  | .Typelist Head Tail, T =>
    if Head = T then EraseAll Tail T else (EraseAll Tail T).map (Ty.Typelist Head)
  | .other _, _ => none

/-- `TL::Reverse<TList>::Result`: `NullType` for `NullType`; for
`Typelist<Head, Tail>` the type `Append<Reverse<Tail>::Result, Head>::Result`. -/
def Reverse : Ty → Option Ty
  | .NullType => some .NullType
  | .Typelist Head Tail => (Reverse Tail).bind fun R => Append R Head
  | .other _ => none

end TL

/-! ## Functor.h: the run-time model -/

/-- The body of an `operator()` or of a member function: from the object's own
data, the arguments and the state outside the functor library it produces a
result or a thrown exception, the new data and the new outside state. -/
abbrev Method (S V W E : Type) := S → List V → W → Except E V × S × W

/-- A copyable callable `Fun` (function pointer or function object): its data
members and its `operator()`. Copying it copies the data members. -/
structure Callable (S V W E : Type) where
  state : S
  op : Method S V W E

/-- `Functor<R, TList>`: its only data member `std::auto_ptr<Impl> spImpl_`,
null or the address of the owned implementation object. -/
structure Functor where
  spImpl_ : Option Nat
deriving DecidableEq

/-- The four implementation classes deriving from `FunctorImpl`, with their
data members. -/
inductive FunctorImpl (S V W E : Type) where
  | FunctorHandler (f_ : Callable S V W E)
  | MemFunHandler (pObj_ : Nat) (pMemFn_ : Method S V W E)
  | BinderFirst (f_ : Functor) (b_ : V)
  | Chainer (f1_ f2_ : Functor)

/-- The dynamic type of an implementation object, as compared by `typeid`. -/
inductive TypeId where
  | FunctorHandler
  | MemFunHandler
  | BinderFirst
  | Chainer
deriving DecidableEq

/-- The operand of `typeid(*p)`. -/
def typeid {S V W E : Type} : FunctorImpl S V W E → TypeId
  | .FunctorHandler _ => .FunctorHandler
  | .MemFunHandler _ _ => .MemFunHandler
  | .BinderFirst _ _ => .BinderFirst
  | .Chainer _ _ => .Chainer

/-- Program state: the heap of implementation objects (`none` is a deleted
cell), the objects that member-function handlers point to, and the state
outside the library that callables may read and write. -/
structure Store (S V W E : Type) where
  impls : List (Option (FunctorImpl S V W E))
  objs : List (Option S)
  world : W

/-- Outcome of running library code: normal completion with a value and the
new state, undefined behaviour (a null or dangling pointer is dereferenced or
deleted), a failed `assert`, or fuel exhausted. -/
inductive Res (σ α : Type) where
  | done (a : α) (s : σ)
  | undefined
  | aborted
  | outOfFuel
deriving DecidableEq

/-- What a client can see of an outcome: the value and the state outside the
implementation heap. -/
def Res.observe {S V W E α : Type} : Res (Store S V W E) α → Res (List (Option S) × W) α
  | .done a s => .done a (s.objs, s.world)
  | .undefined => .undefined
  | .aborted => .aborted
  | .outOfFuel => .outOfFuel

/-- Modelled from the spec: the small-object allocator (`4.SmallObj/SmallObj.h`,
base class of `FunctorImplBase`) is not among the sources; it is the opaque
memory source `allocate(size) -> raw storage`. The expression `new Cls(...)`
places the object in a fresh cell. -/
def Store.alloc {S V W E : Type} (s : Store S V W E) (obj : FunctorImpl S V W E) :
    Nat × Store S V W E :=
  (s.impls.length, { s with impls := s.impls ++ [some obj] })

/-- `Functor::operator()`, `(*spImpl_)(args)`, with the virtual call resolved
to the `operator()` of the four implementation classes. The argument list
stands for the overloads `()`, `(p1)`, `(p1, p2)`. A thrown exception is the
value `Except.error`, with the state as it was left at the throw. -/
def Functor.call {S V W E : Type} :
    Nat → Store S V W E → Functor → List V → Res (Store S V W E) (Except E V)
  | 0, _, _, _ => .outOfFuel
  | _ + 1, _, ⟨none⟩, _ => .undefined
  | fuel + 1, s, ⟨some a⟩, args =>
    match s.impls[a]? with
    | some (some (.FunctorHandler f)) =>
      match f.op f.state args s.world with
      | (r, st, w) =>
        .done r { s with
          impls := s.impls.set a (some (.FunctorHandler { f with state := st })),
          world := w }
    | some (some (.MemFunHandler p m)) =>
      match s.objs[p]? with
      | some (some o) =>
        match m o args s.world with
        | (r, o1, w) => .done r { s with objs := s.objs.set p (some o1), world := w }
      | _ => .undefined
    | some (some (.BinderFirst f b)) => Functor.call fuel s f (b :: args)
    | some (some (.Chainer f1 f2)) =>
      match Functor.call fuel s f1 args with
      | .done (.ok _) s1 => Functor.call fuel s1 f2 args
      | r => r
    | _ => .undefined

/-- The function `FunctorImplBase::Clone` together with the `DoClone` that
`DEFINE_CLONE_FUNCTORIMPL` gives each class, `new Cls(*this)`: the data members
are copy-constructed (a `Functor` member through `Functor(const Functor&)`,
which calls `Clone` again), and `Clone` asserts that the clone has the dynamic
type of the original. The clone is numbered after the clones of its members;
cell numbers are not observable by a client. -/
def Clone {S V W E : Type} :
    Nat → Store S V W E → Option Nat → Res (Store S V W E) (Option Nat)
  | 0, _, _ => .outOfFuel
  | _ + 1, s, none => .done none s
  | fuel + 1, s, some a =>
    match s.impls[a]? with
    | some (some pObj) =>
      let pClone : Res (Store S V W E) Nat :=
        match pObj with
        | .FunctorHandler f =>
          .done (s.alloc (.FunctorHandler f)).1 (s.alloc (.FunctorHandler f)).2
        | .MemFunHandler p m =>
          .done (s.alloc (.MemFunHandler p m)).1 (s.alloc (.MemFunHandler p m)).2
        | .BinderFirst f b =>
          match Clone fuel s f.spImpl_ with
          | .done c s1 =>
            .done (s1.alloc (.BinderFirst ⟨c⟩ b)).1 (s1.alloc (.BinderFirst ⟨c⟩ b)).2
          | .undefined => .undefined
          | .aborted => .aborted
          | .outOfFuel => .outOfFuel
        | .Chainer f1 f2 =>
          match Clone fuel s f1.spImpl_ with
          | .done c1 s1 =>
            match Clone fuel s1 f2.spImpl_ with
            | .done c2 s2 =>
              .done (s2.alloc (.Chainer ⟨c1⟩ ⟨c2⟩)).1 (s2.alloc (.Chainer ⟨c1⟩ ⟨c2⟩)).2
            | .undefined => .undefined
            | .aborted => .aborted
            | .outOfFuel => .outOfFuel
          | .undefined => .undefined
          | .aborted => .aborted
          | .outOfFuel => .outOfFuel
      match pClone with
      | .done c s1 =>
        match s1.impls[c]? with
        | some (some cObj) => if typeid cObj = typeid pObj then .done (some c) s1 else .aborted
        | _ => .undefined
      | .undefined => .undefined
      | .aborted => .aborted
      | .outOfFuel => .outOfFuel
    | _ => .undefined

/-- `Functor()`: `spImpl_(0)`. -/
def Functor.empty : Functor := ⟨none⟩

/-- `Functor(const Functor& rhs)`: `spImpl_(Impl::Clone(rhs.spImpl_.get()))`. -/
def Functor.copy {S V W E : Type} (fuel : Nat) (s : Store S V W E) (rhs : Functor) :
    Res (Store S V W E) Functor :=
  match Clone fuel s rhs.spImpl_ with
  | .done c s1 => .done ⟨c⟩ s1
  | .undefined => .undefined
  | .aborted => .aborted
  | .outOfFuel => .outOfFuel

/-- `Functor(std::auto_ptr<Impl> spImpl)`: the parameter is copy-constructed
from the caller's handle, which `std::auto_ptr` leaves null, and `spImpl_`
takes the pointer over. Returns the new functor and the caller's handle. -/
def Functor.ofAutoPtr (spImpl : Option Nat) : Functor × Option Nat :=
  (⟨spImpl⟩, none)

/-- `Functor(Fun fun)`: `spImpl_(new FunctorHandler<Functor, Fun>(fun))`. -/
def Functor.ofFun {S V W E : Type} (s : Store S V W E) (f : Callable S V W E) :
    Functor × Store S V W E :=
  (⟨some (s.alloc (.FunctorHandler f)).1⟩, (s.alloc (.FunctorHandler f)).2)

/-- `Functor(const PtrObj& p, MemFn memFn)`:
`spImpl_(new MemFunHandler<Functor, PtrObj, MemFn>(p, memFn))`. -/
def Functor.ofMemFn {S V W E : Type} (s : Store S V W E) (p : Nat) (memFn : Method S V W E) :
    Functor × Store S V W E :=
  (⟨some (s.alloc (.MemFunHandler p memFn)).1⟩, (s.alloc (.MemFunHandler p memFn)).2)

/-- `operator unspecified_bool_type`: non-null iff `spImpl_.get()` is. -/
def Functor.toBool (f : Functor) : Bool :=
  match f.spImpl_ with
  | some _ => true
  | none => false

/-- `BindFirst(fun, bound)`: `new BinderFirst<Fctor>(fun, bound)`, whose
constructor copies `fun` into `f_` and `bound` into `b_`, handed to the
outgoing functor through an `auto_ptr`. -/
def BindFirst {S V W E : Type} (fuel : Nat) (s : Store S V W E) (f : Functor) (bound : V) :
    Res (Store S V W E) Functor :=
  match Functor.copy fuel s f with
  | .done f_ s1 =>
    .done (Functor.ofAutoPtr (some (s1.alloc (.BinderFirst f_ bound)).1)).1
      (s1.alloc (.BinderFirst f_ bound)).2
  | .undefined => .undefined
  | .aborted => .aborted
  | .outOfFuel => .outOfFuel

/-- `Chain(fun1, fun2)`: `new Chainer<Fun1, Fun2>(fun1, fun2)`, whose
constructor copies `fun1` into `f1_` and then `fun2` into `f2_`. -/
def Chain {S V W E : Type} (fuel : Nat) (s : Store S V W E) (fun1 fun2 : Functor) :
    Res (Store S V W E) Functor :=
  match Functor.copy fuel s fun1 with
  | .done f1_ s1 =>
    match Functor.copy fuel s1 fun2 with
    | .done f2_ s2 =>
      .done (Functor.ofAutoPtr (some (s2.alloc (.Chainer f1_ f2_)).1)).1
        (s2.alloc (.Chainer f1_ f2_)).2
    | .undefined => .undefined
    | .aborted => .aborted
    | .outOfFuel => .outOfFuel
  | .undefined => .undefined
  | .aborted => .aborted
  | .outOfFuel => .outOfFuel

/-- The call `((*p).*m)(args)` made directly on the object that `p` points
to. -/
def callMember {S V W E : Type} (s : Store S V W E) (p : Nat) (m : Method S V W E)
    (args : List V) : Res (Store S V W E) (Except E V) :=
  match s.objs[p]? with
  | some (some o) =>
    match m o args s.world with
    | (r, o1, w) => .done r { s with objs := s.objs.set p (some o1), world := w }
  | _ => .undefined

/-! ## The object graph owned by a functor -/

/-- The implementation objects reachable from a functor, as a tree: what the
functor holds when every `auto_ptr` is the only owner of its pointee. -/
inductive Owned (S V W E : Type) where
  | null
  | FunctorHandler (f_ : Callable S V W E)
  | MemFunHandler (pObj_ : Nat) (pMemFn_ : Method S V W E)
  | BinderFirst (f_ : Owned S V W E) (b_ : V)
  | Chainer (f1_ f2_ : Owned S V W E)

/-- Nesting depth of an owned object graph: the fuel a traversal needs. -/
def Owned.depth {S V W E : Type} : Owned S V W E → Nat
  | .null => 0
  | .FunctorHandler _ => 1
  | .MemFunHandler _ _ => 1
  | .BinderFirst t _ => t.depth + 1
  | .Chainer t1 t2 => max t1.depth t2.depth + 1

/-- The statement `Owns h f t fp`: in heap `h` the functor `f` is the sole owner of the
object graph `t`, which occupies exactly the cells `fp`, no cell twice. -/
inductive Owns {S V W E : Type} (h : List (Option (FunctorImpl S V W E))) :
    Functor → Owned S V W E → List Nat → Prop where
  | null : Owns h ⟨none⟩ .null []
  | FunctorHandler {a : Nat} {f : Callable S V W E} :
      h[a]? = some (some (.FunctorHandler f)) → Owns h ⟨some a⟩ (.FunctorHandler f) [a]
  | MemFunHandler {a p : Nat} {m : Method S V W E} :
      h[a]? = some (some (.MemFunHandler p m)) → Owns h ⟨some a⟩ (.MemFunHandler p m) [a]
  | BinderFirst {a : Nat} {g : Functor} {b : V} {t : Owned S V W E} {fp : List Nat} :
      h[a]? = some (some (.BinderFirst g b)) → Owns h g t fp → a ∉ fp →
      Owns h ⟨some a⟩ (.BinderFirst t b) (a :: fp)
  | Chainer {a : Nat} {g1 g2 : Functor} {t1 t2 : Owned S V W E} {fp1 fp2 : List Nat} :
      h[a]? = some (some (.Chainer g1 g2)) → Owns h g1 t1 fp1 → Owns h g2 t2 fp2 →
      a ∉ fp1 → a ∉ fp2 → (∀ x ∈ fp1, x ∉ fp2) →
      Owns h ⟨some a⟩ (.Chainer t1 t2) (a :: (fp1 ++ fp2))

/-- The call of a functor that owns the object graph `t`, computed on the graph
itself: the result, the graph after the call and the state outside. -/
def Owned.call {S V W E : Type} :
    Owned S V W E → List V → List (Option S) → W →
      Res (Owned S V W E × List (Option S) × W) (Except E V)
  | .null, _, _, _ => .undefined
  | .FunctorHandler f, args, objs, w =>
    match f.op f.state args w with
    | (r, st, w1) => .done r (.FunctorHandler { f with state := st }, objs, w1)
  | .MemFunHandler p m, args, objs, w =>
    match objs[p]? with
    | some (some o) =>
      match m o args w with
      | (r, o1, w1) => .done r (.MemFunHandler p m, objs.set p (some o1), w1)
    | _ => .undefined
  | .BinderFirst t b, args, objs, w =>
    match t.call (b :: args) objs w with
    | .done r (t1, o1, w1) => .done r (.BinderFirst t1 b, o1, w1)
    | .undefined => .undefined
    | .aborted => .aborted
    | .outOfFuel => .outOfFuel
  | .Chainer t1 t2, args, objs, w =>
    match t1.call args objs w with
    | .done (.ok _) (u1, o1, w1) =>
      match t2.call args o1 w1 with
      | .done r (u2, o2, w2) => .done r (.Chainer u1 u2, o2, w2)
      | .undefined => .undefined
      | .aborted => .aborted
      | .outOfFuel => .outOfFuel
    | .done (.error e) (u1, o1, w1) => .done (.error e) (.Chainer u1 t2, o1, w1)
    | .undefined => .undefined
    | .aborted => .aborted
    | .outOfFuel => .outOfFuel

/-- What a client can see of an outcome computed on the owned graph. -/
def Owned.observe {S V W E α : Type} :
    Res (Owned S V W E × List (Option S) × W) α → Res (List (Option S) × W) α
  | .done a (_, o, w) => .done a (o, w)
  | .undefined => .undefined
  | .aborted => .aborted
  | .outOfFuel => .outOfFuel

/-- Sequencing of outcomes: run `k` on the value and state of a normal
completion, pass every other outcome on. -/
def Res.bind {σ α β : Type} (r : Res σ α) (k : α → σ → Res σ β) : Res σ β :=
  match r with
  | .done a s => k a s
  | .undefined => .undefined
  | .aborted => .aborted
  | .outOfFuel => .outOfFuel

/-- The statement `f1(args), f2(args)` executed on two functors directly:
`f1` is called, its result is discarded, then `f2` is called in the state that
`f1` left; an exception thrown by `f1` ends the statement. -/
def callBoth {S V W E : Type} (fuel : Nat) (s : Store S V W E) (f1 f2 : Functor)
    (args : List V) : Res (Store S V W E) (Except E V) :=
  match Functor.call fuel s f1 args with
  | .done (.ok _) s1 => Functor.call fuel s1 f2 args
  | r => r

/-- Whether an outcome is a failure reported to the caller: a thrown exception
or a failed assertion. Undefined behaviour is not a report. -/
def Res.reportsFailure {σ ε α : Type} : Res σ (Except ε α) → Bool
  | .done (.error _) _ => true
  | .aborted => true
  | _ => false

/-- Whether an outcome hands the caller a result value. -/
def Res.returnsValue {σ ε α : Type} : Res σ (Except ε α) → Bool
  | .done (.ok _) _ => true
  | _ => false

/-- A client that calls through two functors in any order: each step names
the functor (`true` for the first) and gives the arguments. Results are
dropped and a thrown exception is caught by the client; the run stops at
undefined behaviour. -/
def callMix {S V W E : Type} (fuel : Nat) (a b : Functor) :
    Store S V W E → List (Bool × List V) → Option (Store S V W E)
  | s, [] => some s
  | s, (who, args) :: rest =>
    match Functor.call fuel s (if who then a else b) args with
    | .done _ s1 => callMix fuel a b s1 rest
    | _ => none

/-- The data members of the callable stored in the `FunctorHandler` that a
functor owns. -/
def Functor.state? {S V W E : Type} (s : Store S V W E) (f : Functor) : Option S :=
  match f.spImpl_ with
  | some a =>
    match s.impls[a]? with
    | some (some (.FunctorHandler c)) => some c.state
    | _ => none
  | none => none

/-- Modelled from the spec: `4.SmallObj/SmallObj.h`, whose `SmallObject` gives
`FunctorImplBase` its virtual destructor and `operator delete`, is not among
the sources; an implementation object is destroyed when its owner releases it.
The expression `delete p` on an implementation pointer: nothing for a null
pointer; otherwise the destructor of the object runs, which destroys the data
members in reverse order of declaration (a `Functor` member destroys its
`auto_ptr`, which deletes its pointee), and the cell is released. Deleting a
pointer to a released cell is undefined. The handle `pObj_` of a
`MemFunHandler` does not own its target. -/
def deleteImpl {S V W E : Type} :
    Nat → Store S V W E → Option Nat → Res (Store S V W E) Unit
  | 0, _, _ => .outOfFuel
  | _ + 1, s, none => .done () s
  | fuel + 1, s, some a =>
    match s.impls[a]? with
    | some (some (.BinderFirst f _)) =>
      (deleteImpl fuel s f.spImpl_).bind fun _ s1 =>
        .done () { s1 with impls := s1.impls.set a none }
    | some (some (.Chainer f1 f2)) =>
      (deleteImpl fuel s f2.spImpl_).bind fun _ s1 =>
        (deleteImpl fuel s1 f1.spImpl_).bind fun _ s2 =>
          .done () { s2 with impls := s2.impls.set a none }
    | some (some _) => .done () { s with impls := s.impls.set a none }
    | _ => .undefined

/-- `std::auto_ptr::release()`: returns the held pointer (first component) and
leaves the handle null (second component). -/
def AutoPtr.release (ptr : Option Nat) : Option Nat × Option Nat := (ptr, none)

/-- `std::auto_ptr::reset(p)`: `if (p != ptr) { delete ptr; ptr = p; }`;
returns the pointer held afterwards. -/
def AutoPtr.reset {S V W E : Type} (fuel : Nat) (s : Store S V W E) (ptr p : Option Nat) :
    Res (Store S V W E) (Option Nat) :=
  if p = ptr then .done ptr s
  else (deleteImpl fuel s ptr).bind fun _ s1 => .done p s1

/-- `Functor::operator=(const Functor& rhs)`. The functor objects of the
client are the list `vars`; `this` and `rhs` are positions in it, so that
`a = a` passes the same object twice. The body: `Functor copy(rhs)`,
`p = spImpl_.release()`, `spImpl_.reset(copy.spImpl_.release())`,
`copy.spImpl_.reset(p)`, and on return the destructor of `copy` deletes what
`copy` holds. Returns the functor objects after the assignment. -/
def Functor.assign {S V W E : Type} (fuel : Nat) (s : Store S V W E) (vars : List Functor)
    (this rhs : Nat) : Res (Store S V W E) (List Functor) :=
  match vars[this]?, vars[rhs]? with
  | some lhs, some r =>
    (Functor.copy fuel s r).bind fun copy s1 =>
      (AutoPtr.reset fuel s1 (AutoPtr.release lhs.spImpl_).2
          (AutoPtr.release copy.spImpl_).1).bind fun q s2 =>
        (AutoPtr.reset fuel s2 (AutoPtr.release copy.spImpl_).2
            (AutoPtr.release lhs.spImpl_).1).bind fun c s3 =>
          (deleteImpl fuel s3 c).bind fun _ s4 => .done (vars.set this ⟨q⟩) s4
  | _, _ => .undefined

/-- The class `Functor<R, TList, ThreadingModel>`, by its template arguments
`R` and `TList`. -/
structure FunctorType where
  R : Ty
  TList : Ty
deriving DecidableEq

/-- `Private::BinderFirstTraits<Functor<R, TList, ThreadingModel>>::BoundFunctorType`,
that is `Functor<R, ParmList, ThreadingModel>`; it exists when `ParmList`
does. -/
def Private.BinderFirstTraits.BoundFunctorType (Fctor : FunctorType) : Option FunctorType :=
  (Private.BinderFirstTraits.ParmList Fctor.TList).map fun ParmList => ⟨Fctor.R, ParmList⟩

/-- Names of member typedefs of a functor class that the library refers
to. -/
inductive MemberTypedef where
  | Impl
  | ResultType
  | ParmList
  | Parm1
  | Parm2
  | Parm3
deriving DecidableEq

/-- The member typedefs that the class template `Functor` declares
(Functor.h 165-169): `Impl`, `ResultType`, `ParmList`, `Parm1`, `Parm2`.
There is no `Parm3`. -/
def Functor.typedefs : List MemberTypedef :=
  [.Impl, .ResultType, .ParmList, .Parm1, .Parm2]

/-- The member typedefs of `OriginalFunctor` that the class template
`BinderFirst<OriginalFunctor>` names (Functor.h 247-252): `ResultType`,
`Parm1` (as `BoundType`), `Parm2` and `Parm3`. -/
def BinderFirst.requires : List MemberTypedef :=
  [.ResultType, .Parm1, .Parm2, .Parm3]

/-- The parameter lists for which `FunctorImpl<R, TList>` is specialised
(Functor.h 55-84): `NullType`, `TYPELIST_1(P1)` and `TYPELIST_2(P1, P2)`. Only
for these is `Functor<R, TList>` a class. -/
def FunctorImpl.specialised : Ty → Bool
  | .NullType => true
  | .Typelist _ .NullType => true
  | .Typelist _ (.Typelist _ .NullType) => true
  | _ => false

/-- The function template `BindFirst<Fctor>` for a functor class that declares
the member typedefs `declared`. There is an instantiation for `Fctor` only when
`Fctor` is a class, when the return type
`Private::BinderFirstTraits<Fctor>::BoundFunctorType` exists and is a class,
and when `BinderFirst<Fctor>`, which the body constructs, finds in `Fctor` every
member typedef it names; a call then returns a functor of the return type,
built by `BindFirst`. -/
def BindFirst.instantiate {S V W E : Type} (declared : List MemberTypedef)
    (Fctor : FunctorType) (fuel : Nat) (s : Store S V W E) (f : Functor) (bound : V) :
    Option (FunctorType × Res (Store S V W E) Functor) :=
  match FunctorImpl.specialised Fctor.TList &&
      BinderFirst.requires.all (fun x => decide (x ∈ declared)) with
  | true =>
    (Private.BinderFirstTraits.BoundFunctorType Fctor).bind fun Outgoing =>
      match FunctorImpl.specialised Outgoing.TList with
      | true => some (Outgoing, BindFirst fuel s f bound)
      | false => none
  | false => none

/-- The virtual function `DoClone` as `DEFINE_CLONE_FUNCTORIMPL(Cls)` defines
it in each of the four classes, `new Cls(*this)`: the data members are
copy-constructed, a `Functor` member through `Functor(const Functor&)`. -/
def DoClone {S V W E : Type} (fuel : Nat) (s : Store S V W E) :
    FunctorImpl S V W E → Res (Store S V W E) Nat
  | .FunctorHandler f =>
    .done (s.alloc (.FunctorHandler f)).1 (s.alloc (.FunctorHandler f)).2
  | .MemFunHandler p m =>
    .done (s.alloc (.MemFunHandler p m)).1 (s.alloc (.MemFunHandler p m)).2
  | .BinderFirst f b =>
    (Functor.copy fuel s f).bind fun f_ s1 =>
      .done (s1.alloc (.BinderFirst f_ b)).1 (s1.alloc (.BinderFirst f_ b)).2
  | .Chainer f1 f2 =>
    (Functor.copy fuel s f1).bind fun f1_ s1 =>
      (Functor.copy fuel s1 f2).bind fun f2_ s2 =>
        .done (s2.alloc (.Chainer f1_ f2_)).1 (s2.alloc (.Chainer f1_ f2_)).2

/-- The body of `FunctorImplBase::Clone(U* pObj)` for whatever the virtual call
`pObj->DoClone()` does, here the parameter `doClone`:
`if (!pObj) return 0;`, then `pClone = pObj->DoClone()`, then
`assert(typeid(*pClone) == typeid(*pObj))`, then `return pClone`. -/
def CloneWith {S V W E : Type}
    (doClone : Store S V W E → FunctorImpl S V W E → Res (Store S V W E) Nat)
    (s : Store S V W E) (pObj : Option Nat) : Res (Store S V W E) (Option Nat) :=
  match pObj with
  | none => .done none s
  | some a =>
    match s.impls[a]? with
    | some (some obj) =>
      (doClone s obj).bind fun pClone s1 =>
        match s1.impls[pClone]? with
        | some (some cObj) =>
          if typeid cObj = typeid obj then .done (some pClone) s1 else .aborted
        | _ => .undefined
    | _ => .undefined

/-- A `DoClone` that is wrong for every class but `Chainer`: whatever the
object, it returns a new, empty `Chainer`. -/
def wrongDoClone {S V W E : Type} (s : Store S V W E) (_ : FunctorImpl S V W E) :
    Res (Store S V W E) Nat :=
  .done (s.alloc (.Chainer ⟨none⟩ ⟨none⟩)).1 (s.alloc (.Chainer ⟨none⟩ ⟨none⟩)).2

/-! ## Example programs -/

/-- A store with no implementation objects, no target objects and an empty
log as outside state. -/
def emptyStore : Store Nat Int (List Int) Nat := ⟨[], [], []⟩

/-- The free function `add(x, y) = x + y`. Exception 0 stands for a call
with another number of arguments, which C++ rejects at compile time. -/
def add : Callable Nat Int (List Int) Nat :=
  ⟨0, fun st args w =>
    match args with
    | [x, y] => (.ok (x + y), st, w)
    | _ => (.error 0, st, w)⟩

/-- The store and the functor after `Functor<int, TYPELIST_2(int, int)> f(add)`. -/
def addProgram : Functor × Store Nat Int (List Int) Nat := Functor.ofFun emptyStore add

/-- The callable `logAndReturn(x)`: appends `x` to the external log and
returns `x`. -/
def logAndReturn : Callable Nat Int (List Int) Nat :=
  ⟨0, fun st args w =>
    match args with
    | [x] => (.ok x, st, w ++ [x])
    | _ => (.error 0, st, w)⟩

/-- The callable `double(x)`: returns `2x`. -/
def double : Callable Nat Int (List Int) Nat :=
  ⟨0, fun st args w =>
    match args with
    | [x] => (.ok (2 * x), st, w)
    | _ => (.error 0, st, w)⟩

/-- The store and the two functors after constructing one functor from
`logAndReturn` and one from `double`. -/
def chainProgram : Functor × Functor × Store Nat Int (List Int) Nat :=
  ((Functor.ofFun emptyStore logAndReturn).1,
    (Functor.ofFun (Functor.ofFun emptyStore logAndReturn).2 double).1,
    (Functor.ofFun (Functor.ofFun emptyStore logAndReturn).2 double).2)

/-- The callable `failing(x)`: appends `x` to the external log and then throws
exception 7. -/
def failing : Callable Nat Int (List Int) Nat :=
  ⟨0, fun st args w =>
    match args with
    | [x] => (.error 7, st + 1, w ++ [x])
    | _ => (.error 0, st, w)⟩

/-- The store and the two functors after constructing one functor from
`failing` and one from `logAndReturn`. -/
def failProgram : Functor × Functor × Store Nat Int (List Int) Nat :=
  ((Functor.ofFun emptyStore failing).1,
    (Functor.ofFun (Functor.ofFun emptyStore failing).2 logAndReturn).1,
    (Functor.ofFun (Functor.ofFun emptyStore failing).2 logAndReturn).2)

/-- A member function `bump(x)` of a class whose only data member is a
counter: adds `x` to the counter and returns the new value. -/
def bump : Method Nat Int (List Int) Nat :=
  fun o args w =>
    match args with
    | [x] => (.ok (o + x), o + x.toNat, w)
    | _ => (.error 0, o, w)

/-- A store with one target object, a counter at 10, at handle 0. -/
def objStore : Store Nat Int (List Int) Nat := ⟨[], [some 10], []⟩

/-- A function object that counts its calls in a data member and returns the
count. -/
def counter : Callable Nat Int (List Int) Nat :=
  ⟨0, fun st _ w => (.ok ((st + 1 : Nat) : Int), st + 1, w)⟩

/-- The store and the functor after constructing a functor from `counter`. -/
def counterProgram : Functor × Store Nat Int (List Int) Nat := Functor.ofFun emptyStore counter

/-- The test of copy independence: copy the functor, call the copy 3 times and
the original 2 times, read the two counters (original, copy). -/
def counterRun : Option (Option Nat × Option Nat) :=
  match Functor.copy 2 counterProgram.2 counterProgram.1 with
  | .done b s1 =>
    (callMix 2 counterProgram.1 b s1
      [(false, []), (true, []), (false, []), (false, []), (true, [])]).map
      (fun s2 => (Functor.state? s2 counterProgram.1, Functor.state? s2 b))
  | _ => none

/-- The client's functor objects for the assignment test: `vars[0]` built from
`counter`, `vars[1]` built from `double`. -/
def assignProgram : List Functor × Store Nat Int (List Int) Nat :=
  ([(Functor.ofFun emptyStore counter).1,
      (Functor.ofFun (Functor.ofFun emptyStore counter).2 double).1],
    (Functor.ofFun (Functor.ofFun emptyStore counter).2 double).2)

/-- An example of an is-derived-from relation: the class numbered `b` derives
from the class numbered `a` when `a` divides `b`; `NullType` and typelists are
related to themselves only. -/
def dividesExample : Ty → Ty → Bool
  | .other a, .other b => decide (a ∣ b)
  | x, y => decide (x = y)

/-- The composed functor `Chain(BindFirst(f, 5), BindFirst(f, 1))` built on the
functor `f` of `addProgram`. -/
def nestedProgram : Res (Store Nat Int (List Int) Nat) Functor :=
  (BindFirst 2 addProgram.2 addProgram.1 5).bind fun g1 s1 =>
    (BindFirst 2 s1 addProgram.1 1).bind fun g2 s2 => Chain 3 s2 g1 g2

/-- The store that `nestedProgram` ends in: cell 0 holds `f`, cells 1 to 4 the
two binders with their copies of `f`, cells 5 to 9 the chainer with its copies
of the binders. -/
def nestedStore : Store Nat Int (List Int) Nat :=
  ⟨[some (.FunctorHandler add),
      some (.FunctorHandler add), some (.BinderFirst ⟨some 1⟩ 5),
      some (.FunctorHandler add), some (.BinderFirst ⟨some 3⟩ 1),
      some (.FunctorHandler add), some (.BinderFirst ⟨some 5⟩ 5),
      some (.FunctorHandler add), some (.BinderFirst ⟨some 7⟩ 1),
      some (.Chainer ⟨some 6⟩ ⟨some 8⟩)], [], []⟩

/-- The object graph that the functor of `nestedProgram` owns. -/
def nestedGraph : Owned Nat Int (List Int) Nat :=
  .Chainer (.BinderFirst (.FunctorHandler add) 5) (.BinderFirst (.FunctorHandler add) 1)

/-- A callable that throws exception 3 when its first argument is negative and
returns the sum of its two arguments otherwise. -/
def checkedAdd : Callable Nat Int (List Int) Nat :=
  ⟨0, fun st args w =>
    match args with
    | [x, y] => if x < 0 then (.error 3, st, w) else (.ok (x + y), st, w)
    | _ => (.error 0, st, w)⟩

/-- The store and the functor after constructing a functor from
`checkedAdd`. -/
def checkedProgram : Functor × Store Nat Int (List Int) Nat :=
  Functor.ofFun emptyStore checkedAdd

/-! ## Proofs -/

section Lemmas

variable {S V W E : Type}

theorem owns_frame {h h1 : List (Option (FunctorImpl S V W E))} {f : Functor}
    {t : Owned S V W E} {fp : List Nat} (ho : Owns h f t fp)
    (hfr : ∀ a ∈ fp, h1[a]? = h[a]?) : Owns h1 f t fp := by
  induction ho with
  | null => exact .null
  | FunctorHandler hl => exact .FunctorHandler (by rw [hfr _ (by simp)]; exact hl)
  | MemFunHandler hl => exact .MemFunHandler (by rw [hfr _ (by simp)]; exact hl)
  | BinderFirst hl _ hn ih =>
    exact .BinderFirst (by rw [hfr _ (by simp)]; exact hl)
      (ih (fun a ha => hfr a (by simp [ha]))) hn
  | Chainer hl _ _ hn1 hn2 hd ih1 ih2 =>
    exact .Chainer (by rw [hfr _ (by simp)]; exact hl)
      (ih1 (fun a ha => hfr a (by simp [ha])))
      (ih2 (fun a ha => hfr a (by simp [ha]))) hn1 hn2 hd

theorem owns_lt {h : List (Option (FunctorImpl S V W E))} {f : Functor}
    {t : Owned S V W E} {fp : List Nat} (ho : Owns h f t fp) :
    ∀ a ∈ fp, a < h.length := by
  induction ho with
  | null => simp
  | FunctorHandler hl =>
    intro a ha
    simp at ha; subst ha
    exact (List.getElem?_eq_some.1 hl).1
  | MemFunHandler hl =>
    intro a ha
    simp at ha; subst ha
    exact (List.getElem?_eq_some.1 hl).1
  | BinderFirst hl _ _ ih =>
    intro a ha
    simp at ha
    rcases ha with rfl | ha
    · exact (List.getElem?_eq_some.1 hl).1
    · exact ih a ha
  | Chainer hl _ _ _ _ _ ih1 ih2 =>
    intro a ha
    simp at ha
    rcases ha with rfl | ha | ha
    · exact (List.getElem?_eq_some.1 hl).1
    · exact ih1 a ha
    · exact ih2 a ha

theorem call_sim (t : Owned S V W E) :
    ∀ (h : List (Option (FunctorImpl S V W E))) (f : Functor) (fp : List Nat) (fuel : Nat)
      (objs : List (Option S)) (w : W) (args : List V),
      Owns h f t fp → t.depth < fuel →
      (∀ r u o1 w1, t.call args objs w = .done r (u, o1, w1) →
        ∃ h1, Functor.call fuel ⟨h, objs, w⟩ f args = .done r ⟨h1, o1, w1⟩ ∧
          Owns h1 f u fp ∧ h1.length = h.length ∧ ∀ a, a ∉ fp → h1[a]? = h[a]?) ∧
      (t.call args objs w = .undefined →
        Functor.call fuel ⟨h, objs, w⟩ f args = .undefined) ∧
      t.call args objs w ≠ .aborted ∧ t.call args objs w ≠ .outOfFuel := by
  induction t with
  | null =>
    intro h f fp fuel objs w args ho hfuel
    cases ho
    cases fuel with
    | zero => simp [Owned.depth] at hfuel
    | succ n => simp [Owned.call, Functor.call]
  | FunctorHandler c =>
    intro h f fp fuel objs w args ho hfuel
    cases ho with
    | FunctorHandler hl =>
      rename_i a
      have ha : a < h.length := (List.getElem?_eq_some.1 hl).1
      cases fuel with
      | zero => simp [Owned.depth] at hfuel
      | succ n =>
        rcases hop : c.op c.state args w with ⟨r0, st, w0⟩
        simp only [Owned.call, Functor.call, hl, hop]
        refine ⟨?_, by simp, by simp, by simp⟩
        intro r u o1 w1 heq
        simp only [Res.done.injEq, Prod.mk.injEq] at heq
        obtain ⟨rfl, rfl, rfl, rfl⟩ := heq
        refine ⟨_, rfl, ?_, by simp, ?_⟩
        · exact .FunctorHandler (by simp [ha])
        · intro b hb
          have : a ≠ b := by intro hab; subst hab; simp at hb
          simp [this]
  | MemFunHandler p m =>
    intro h f fp fuel objs w args ho hfuel
    cases ho with
    | MemFunHandler hl =>
      rename_i a
      cases fuel with
      | zero => simp [Owned.depth] at hfuel
      | succ n =>
        simp only [Owned.call, Functor.call, hl]
        rcases hobj : objs[p]? with _ | _ | o
        · simp
        · simp
        · rcases hop : m o args w with ⟨r0, o0, w0⟩
          simp only [hop]
          refine ⟨?_, by simp, by simp, by simp⟩
          intro r u o1 w1 heq
          simp only [Res.done.injEq, Prod.mk.injEq] at heq
          obtain ⟨rfl, rfl, rfl, rfl⟩ := heq
          exact ⟨_, rfl, .MemFunHandler hl, rfl, fun _ _ => rfl⟩
  | BinderFirst t b ih =>
    intro h f fp fuel objs w args ho hfuel
    cases ho with
    | BinderFirst hl hg hn =>
      rename_i a g fp0
      cases fuel with
      | zero => simp [Owned.depth] at hfuel
      | succ n =>
        have hd : t.depth < n := by simp [Owned.depth] at hfuel; omega
        obtain ⟨ih1, ih2, ih3, ih4⟩ := ih h g fp0 n objs w (b :: args) hg hd
        simp only [Owned.call, Functor.call, hl]
        rcases hc : t.call (b :: args) objs w with ⟨r0, u0, o0, w0⟩ | _ | _ | _
        · refine ⟨?_, by simp, by simp, by simp⟩
          intro r u o1 w1 heq
          simp only [Res.done.injEq, Prod.mk.injEq] at heq
          obtain ⟨rfl, rfl, rfl, rfl⟩ := heq
          obtain ⟨h1, hcall, ho1, hlen, hfr⟩ := ih1 _ _ _ _ hc
          refine ⟨h1, hcall, ?_, hlen, ?_⟩
          · exact .BinderFirst (by rw [hfr a hn]; exact hl) ho1 hn
          · intro x hx
            exact hfr x (fun hx1 => hx (by simp [hx1]))
        · exact ⟨by simp, fun _ => ih2 hc, by simp, by simp⟩
        · exact absurd hc ih3
        · exact absurd hc ih4
  | Chainer t1 t2 ih1 ih2 =>
    intro h f fp fuel objs w args ho hfuel
    cases ho with
    | Chainer hl hg1 hg2 hn1 hn2 hdis =>
      rename_i a g1 g2 fp1 fp2
      cases fuel with
      | zero => simp [Owned.depth] at hfuel
      | succ n =>
        have hd1 : t1.depth < n := by simp [Owned.depth] at hfuel; omega
        have hd2 : t2.depth < n := by simp [Owned.depth] at hfuel; omega
        obtain ⟨a1, a2, a3, a4⟩ := ih1 h g1 fp1 n objs w args hg1 hd1
        simp only [Owned.call, Functor.call, hl]
        rcases hc : t1.call args objs w with ⟨r0, u0, o0, w0⟩ | _ | _ | _
        · obtain ⟨h1, hcall1, ho1, hlen1, hfr1⟩ := a1 _ _ _ _ hc
          have hself : h1[a]? = some (some (.Chainer g1 g2)) := by rw [hfr1 a hn1]; exact hl
          have hg2k : Owns h1 g2 t2 fp2 :=
            owns_frame hg2 (fun x hx => hfr1 x (fun hx1 => hdis x hx1 hx))
          cases r0 with
          | error e =>
            simp only [hcall1]
            refine ⟨?_, by simp, by simp, by simp⟩
            intro r u o1 w1 heq
            simp only [Res.done.injEq, Prod.mk.injEq] at heq
            obtain ⟨rfl, rfl, rfl, rfl⟩ := heq
            refine ⟨h1, rfl, .Chainer hself ho1 hg2k hn1 hn2 hdis, hlen1, ?_⟩
            intro x hx
            exact hfr1 x (fun hx1 => hx (by simp [hx1]))
          | ok v =>
            obtain ⟨b1, b2, b3, b4⟩ := ih2 h1 g2 fp2 n o0 w0 args hg2k hd2
            simp only [hcall1]
            rcases hc2 : t2.call args o0 w0 with ⟨r2, u2, o2, w2⟩ | _ | _ | _
            · obtain ⟨h2, hcall2, ho2, hlen2, hfr2⟩ := b1 _ _ _ _ hc2
              refine ⟨?_, by simp, by simp, by simp⟩
              intro r u o1 w1 heq
              simp only [Res.done.injEq, Prod.mk.injEq] at heq
              obtain ⟨rfl, rfl, rfl, rfl⟩ := heq
              refine ⟨h2, hcall2, ?_, by rw [hlen2, hlen1], ?_⟩
              · refine .Chainer (by rw [hfr2 a hn2]; exact hself) ?_ ho2 hn1 hn2 hdis
                exact owns_frame ho1 (fun x hx => hfr2 x (hdis x hx))
              · intro x hx
                rw [hfr2 x (fun hx1 => hx (by simp [hx1])),
                  hfr1 x (fun hx1 => hx (by simp [hx1]))]
            · exact ⟨by simp, fun _ => b2 hc2, by simp, by simp⟩
            · exact absurd hc2 b3
            · exact absurd hc2 b4
        · refine ⟨by simp, fun _ => ?_, by simp, by simp⟩
          rw [a2 hc]
        · exact absurd hc a3
        · exact absurd hc a4

theorem owns_append {h : List (Option (FunctorImpl S V W E))} {f : Functor}
    {t : Owned S V W E} {fp : List Nat} (ho : Owns h f t fp)
    (ext : List (Option (FunctorImpl S V W E))) : Owns (h ++ ext) f t fp :=
  owns_frame ho (fun a ha => List.getElem?_append_left (owns_lt ho a ha))

theorem clone_sim (t : Owned S V W E) :
    ∀ (h : List (Option (FunctorImpl S V W E))) (f : Functor) (fp : List Nat) (fuel : Nat)
      (objs : List (Option S)) (w : W),
      Owns h f t fp → t.depth < fuel →
      ∃ c ext fp1, Clone fuel ⟨h, objs, w⟩ f.spImpl_ = .done c ⟨h ++ ext, objs, w⟩ ∧
        Owns (h ++ ext) ⟨c⟩ t fp1 ∧ ∀ a ∈ fp1, h.length ≤ a := by
  induction t with
  | null =>
    intro h f fp fuel objs w ho hfuel
    cases ho
    cases fuel with
    | zero => simp [Owned.depth] at hfuel
    | succ n => exact ⟨none, [], [], by simp [Clone], by simpa using Owns.null, by simp⟩
  | FunctorHandler c =>
    intro h f fp fuel objs w ho hfuel
    cases ho with
    | FunctorHandler hl =>
      cases fuel with
      | zero => simp [Owned.depth] at hfuel
      | succ n =>
        refine ⟨some h.length, [some (.FunctorHandler c)], [h.length], ?_, ?_, by simp⟩
        · simp [Clone, hl, Store.alloc, typeid]
        · exact .FunctorHandler (by simp)
  | MemFunHandler p m =>
    intro h f fp fuel objs w ho hfuel
    cases ho with
    | MemFunHandler hl =>
      cases fuel with
      | zero => simp [Owned.depth] at hfuel
      | succ n =>
        refine ⟨some h.length, [some (.MemFunHandler p m)], [h.length], ?_, ?_, by simp⟩
        · simp [Clone, hl, Store.alloc, typeid]
        · exact .MemFunHandler (by simp)
  | BinderFirst t b ih =>
    intro h f fp fuel objs w ho hfuel
    cases ho with
    | BinderFirst hl hg hn =>
      rename_i a g fp0
      cases fuel with
      | zero => simp [Owned.depth] at hfuel
      | succ n =>
        have hd : t.depth < n := by simp [Owned.depth] at hfuel; omega
        obtain ⟨c, ext, fp1, hc, ho1, hge⟩ := ih h g fp0 n objs w hg hd
        have hlt := owns_lt ho1
        refine ⟨some (h ++ ext).length, ext ++ [some (.BinderFirst ⟨c⟩ b)],
          (h ++ ext).length :: fp1, ?_, ?_, ?_⟩
        · simp only [Clone, hl, hc, Store.alloc, List.getElem?_concat_length, typeid]
          simp
        · rw [← List.append_assoc]
          refine .BinderFirst (List.getElem?_concat_length _ _) (owns_append ho1 _) ?_
          intro hmem
          exact absurd (hlt _ hmem) (by omega)
        · intro x hx
          simp only [List.mem_cons] at hx
          rcases hx with rfl | hx
          · simp
          · exact hge x hx
  | Chainer t1 t2 ih1 ih2 =>
    intro h f fp fuel objs w ho hfuel
    cases ho with
    | Chainer hl hg1 hg2 hn1 hn2 hdis =>
      rename_i a g1 g2 fp1 fp2
      cases fuel with
      | zero => simp [Owned.depth] at hfuel
      | succ n =>
        have hd1 : t1.depth < n := by simp [Owned.depth] at hfuel; omega
        have hd2 : t2.depth < n := by simp [Owned.depth] at hfuel; omega
        obtain ⟨c1, ext1, q1, hc1, ho1, hge1⟩ := ih1 h g1 fp1 n objs w hg1 hd1
        obtain ⟨c2, ext2, q2, hc2, ho2, hge2⟩ :=
          ih2 (h ++ ext1) g2 fp2 n objs w (owns_append hg2 _) hd2
        have hlt1 := owns_lt ho1
        have hlt2 := owns_lt ho2
        refine ⟨some (h ++ ext1 ++ ext2).length, ext1 ++ ext2 ++ [some (.Chainer ⟨c1⟩ ⟨c2⟩)],
          (h ++ ext1 ++ ext2).length :: (q1 ++ q2), ?_, ?_, ?_⟩
        · simp only [Clone, hl, hc1, hc2, Store.alloc, List.getElem?_concat_length, typeid]
          simp
        · have e : h ++ (ext1 ++ ext2 ++ [some (FunctorImpl.Chainer ⟨c1⟩ ⟨c2⟩)]) =
              (h ++ ext1 ++ ext2) ++ [some (FunctorImpl.Chainer ⟨c1⟩ ⟨c2⟩)] := by simp
          rw [e]
          refine .Chainer (List.getElem?_concat_length _ _)
            (owns_append (owns_append ho1 _) _) (owns_append ho2 _) ?_ ?_ ?_
          · intro hmem
            have := hlt1 _ hmem
            simp at this
          · intro hmem
            exact absurd (hlt2 _ hmem) (by omega)
          · intro x hx1 hx2
            have h1 := hlt1 x hx1
            have h2 := hge2 x hx2
            omega
        · intro x hx
          simp only [List.mem_cons, List.mem_append] at hx
          rcases hx with rfl | hx | hx
          · simp
          · exact hge1 x hx
          · have := hge2 x hx
            simp at this
            exact Nat.le_of_add_right_le this

theorem call_observe {h : List (Option (FunctorImpl S V W E))} {f : Functor}
    {t : Owned S V W E} {fp : List Nat} (ho : Owns h f t fp) {fuel : Nat}
    (hfuel : t.depth < fuel) (objs : List (Option S)) (w : W) (args : List V) :
    (Functor.call fuel ⟨h, objs, w⟩ f args).observe = Owned.observe (t.call args objs w) := by
  obtain ⟨c1, c2, c3, c4⟩ := call_sim t h f fp fuel objs w args ho hfuel
  rcases hc : t.call args objs w with ⟨r, u, o1, w1⟩ | _ | _ | _
  · obtain ⟨h1, hcall, _⟩ := c1 _ _ _ _ hc
    simp [hcall, Res.observe, Owned.observe]
  · simp [c2 hc, Res.observe, Owned.observe]
  · exact absurd hc c3
  · exact absurd hc c4

theorem call_ne_outOfFuel {h : List (Option (FunctorImpl S V W E))} {f : Functor}
    {t : Owned S V W E} {fp : List Nat} (ho : Owns h f t fp) {fuel : Nat}
    (hfuel : t.depth < fuel) (objs : List (Option S)) (w : W) (args : List V) :
    Functor.call fuel ⟨h, objs, w⟩ f args ≠ .outOfFuel ∧
      Functor.call fuel ⟨h, objs, w⟩ f args ≠ .aborted := by
  obtain ⟨c1, c2, c3, c4⟩ := call_sim t h f fp fuel objs w args ho hfuel
  rcases hc : t.call args objs w with ⟨r, u, o1, w1⟩ | _ | _ | _
  · obtain ⟨h1, hcall, _⟩ := c1 _ _ _ _ hc
    simp [hcall]
  · simp [c2 hc]
  · exact absurd hc c3
  · exact absurd hc c4

theorem observe_binderFirst (t : Owned S V W E) (b : V) (args : List V)
    (objs : List (Option S)) (w : W) :
    Owned.observe ((Owned.BinderFirst t b).call args objs w) =
      Owned.observe (t.call (b :: args) objs w) := by
  simp only [Owned.call]
  rcases t.call (b :: args) objs w with ⟨r, u, o1, w1⟩ | _ | _ | _ <;> simp [Owned.observe]

theorem bindFirst_sim {h : List (Option (FunctorImpl S V W E))} {f : Functor}
    {t : Owned S V W E} {fp : List Nat} (ho : Owns h f t fp) {fuel : Nat}
    (hfuel : t.depth < fuel) (objs : List (Option S)) (w : W) (b : V) :
    ∃ a ext fp1, BindFirst fuel ⟨h, objs, w⟩ f b = .done ⟨some a⟩ ⟨h ++ ext, objs, w⟩ ∧
      Owns (h ++ ext) ⟨some a⟩ (.BinderFirst t b) fp1 ∧ ∀ x ∈ fp1, h.length ≤ x := by
  obtain ⟨c, ext, fp1, hc, ho1, hge⟩ := clone_sim t h f fp fuel objs w ho hfuel
  have hlt := owns_lt ho1
  refine ⟨(h ++ ext).length, ext ++ [some (.BinderFirst ⟨c⟩ b)], (h ++ ext).length :: fp1,
    ?_, ?_, ?_⟩
  · simp [BindFirst, Functor.copy, hc, Store.alloc, Functor.ofAutoPtr]
  · rw [← List.append_assoc]
    refine .BinderFirst (List.getElem?_concat_length _ _) (owns_append ho1 _) ?_
    intro hmem
    exact absurd (hlt _ hmem) (by omega)
  · intro x hx
    simp only [List.mem_cons] at hx
    rcases hx with rfl | hx
    · simp
    · exact hge x hx

theorem chain_sim {h : List (Option (FunctorImpl S V W E))} {f1 f2 : Functor}
    {t1 t2 : Owned S V W E} {fp1 fp2 : List Nat} (ho1 : Owns h f1 t1 fp1)
    (ho2 : Owns h f2 t2 fp2) {fuel : Nat} (hfuel1 : t1.depth < fuel) (hfuel2 : t2.depth < fuel)
    (objs : List (Option S)) (w : W) :
    ∃ a ext fpc, Chain fuel ⟨h, objs, w⟩ f1 f2 = .done ⟨some a⟩ ⟨h ++ ext, objs, w⟩ ∧
      Owns (h ++ ext) ⟨some a⟩ (.Chainer t1 t2) fpc ∧ ∀ x ∈ fpc, h.length ≤ x := by
  obtain ⟨c1, ext1, q1, hc1, hq1, hge1⟩ := clone_sim t1 h f1 fp1 fuel objs w ho1 hfuel1
  obtain ⟨c2, ext2, q2, hc2, hq2, hge2⟩ :=
    clone_sim t2 (h ++ ext1) f2 fp2 fuel objs w (owns_append ho2 _) hfuel2
  have hlt1 := owns_lt hq1
  have hlt2 := owns_lt hq2
  refine ⟨(h ++ ext1 ++ ext2).length, ext1 ++ ext2 ++ [some (.Chainer ⟨c1⟩ ⟨c2⟩)],
    (h ++ ext1 ++ ext2).length :: (q1 ++ q2), ?_, ?_, ?_⟩
  · simp [Chain, Functor.copy, hc1, hc2, Store.alloc, Functor.ofAutoPtr]
  · have e : h ++ (ext1 ++ ext2 ++ [some (FunctorImpl.Chainer ⟨c1⟩ ⟨c2⟩)]) =
        (h ++ ext1 ++ ext2) ++ [some (FunctorImpl.Chainer ⟨c1⟩ ⟨c2⟩)] := by simp
    rw [e]
    refine .Chainer (List.getElem?_concat_length _ _)
      (owns_append (owns_append hq1 _) _) (owns_append hq2 _) ?_ ?_ ?_
    · intro hmem
      have := hlt1 _ hmem
      simp at this
    · intro hmem
      exact absurd (hlt2 _ hmem) (by omega)
    · intro x hx1 hx2
      have h1 := hlt1 x hx1
      have h2 := hge2 x hx2
      omega
  · intro x hx
    simp only [List.mem_cons, List.mem_append] at hx
    rcases hx with rfl | hx | hx
    · simp
    · exact hge1 x hx
    · have := hge2 x hx
      simp at this
      exact Nat.le_of_add_right_le this

theorem call_depth (t : Owned S V W E) :
    ∀ (args : List V) (objs : List (Option S)) (w : W) r u o1 w1,
      t.call args objs w = .done r (u, o1, w1) → u.depth = t.depth := by
  induction t with
  | null => intro args objs w r u o1 w1 hc; simp [Owned.call] at hc
  | FunctorHandler c =>
    intro args objs w r u o1 w1 hc
    simp only [Owned.call, Res.done.injEq, Prod.mk.injEq] at hc
    obtain ⟨_, rfl, _, _⟩ := hc
    rfl
  | MemFunHandler p m =>
    intro args objs w r u o1 w1 hc
    simp only [Owned.call] at hc
    rcases hobj : objs[p]? with _ | _ | o
    · simp [hobj] at hc
    · simp [hobj] at hc
    · simp only [hobj, Res.done.injEq, Prod.mk.injEq] at hc
      obtain ⟨_, rfl, _, _⟩ := hc
      rfl
  | BinderFirst t b ih =>
    intro args objs w r u o1 w1 hc
    simp only [Owned.call] at hc
    rcases hc1 : t.call (b :: args) objs w with ⟨r0, u0, o0, w0⟩ | _ | _ | _
    · simp only [hc1, Res.done.injEq, Prod.mk.injEq] at hc
      obtain ⟨_, rfl, _, _⟩ := hc
      simp [Owned.depth, ih _ _ _ _ _ _ _ hc1]
    · simp [hc1] at hc
    · simp [hc1] at hc
    · simp [hc1] at hc
  | Chainer t1 t2 ih1 ih2 =>
    intro args objs w r u o1 w1 hc
    simp only [Owned.call] at hc
    rcases hc1 : t1.call args objs w with ⟨r0, u0, o0, w0⟩ | _ | _ | _
    · cases r0 with
      | error e =>
        simp only [hc1, Res.done.injEq, Prod.mk.injEq] at hc
        obtain ⟨_, rfl, _, _⟩ := hc
        simp [Owned.depth, ih1 _ _ _ _ _ _ _ hc1]
      | ok v =>
        simp only [hc1] at hc
        rcases hc2 : t2.call args o0 w0 with ⟨r2, u2, o2, w2⟩ | _ | _ | _
        · simp only [hc2, Res.done.injEq, Prod.mk.injEq] at hc
          obtain ⟨_, rfl, _, _⟩ := hc
          simp [Owned.depth, ih1 _ _ _ _ _ _ _ hc1, ih2 _ _ _ _ _ _ _ hc2]
        · simp [hc2] at hc
        · simp [hc2] at hc
        · simp [hc2] at hc
    · simp [hc1] at hc
    · simp [hc1] at hc
    · simp [hc1] at hc

theorem call_step {h : List (Option (FunctorImpl S V W E))} {f : Functor}
    {t : Owned S V W E} {fp : List Nat} (ho : Owns h f t fp) {fuel : Nat}
    (hfuel : t.depth < fuel) {objs : List (Option S)} {w : W} {args : List V}
    {r : Except E V} {s1 : Store S V W E}
    (hc : Functor.call fuel ⟨h, objs, w⟩ f args = .done r s1) :
    ∃ u, Owns s1.impls f u fp ∧ u.depth = t.depth ∧ s1.impls.length = h.length ∧
      ∀ a, a ∉ fp → s1.impls[a]? = h[a]? := by
  obtain ⟨c1, c2, c3, c4⟩ := call_sim t h f fp fuel objs w args ho hfuel
  rcases hct : t.call args objs w with ⟨r0, u0, o0, w0⟩ | _ | _ | _
  · obtain ⟨k, hcall, hown, hlen, hfr⟩ := c1 _ _ _ _ hct
    rw [hcall] at hc
    simp only [Res.done.injEq] at hc
    obtain ⟨_, rfl⟩ := hc
    exact ⟨u0, hown, call_depth t _ _ _ _ _ _ _ hct, hlen, hfr⟩
  · rw [c2 hct] at hc
    cases hc
  · exact absurd hct c3
  · exact absurd hct c4

theorem callMix_inv {a b : Functor} {fpa fpb : List Nat} {fuel : Nat}
    (hsep : ∀ x ∈ fpa, x ∉ fpb) (steps : List (Bool × List V)) :
    ∀ (s s2 : Store S V W E) (ta tb : Owned S V W E),
      Owns s.impls a ta fpa → Owns s.impls b tb fpb → ta.depth < fuel → tb.depth < fuel →
      callMix fuel a b s steps = some s2 →
      ∃ ua ub, Owns s2.impls a ua fpa ∧ Owns s2.impls b ub fpb ∧
        ua.depth = ta.depth ∧ ub.depth = tb.depth := by
  induction steps with
  | nil =>
    intro s s2 ta tb ha hb _ _ hrun
    simp only [callMix, Option.some.injEq] at hrun
    subst hrun
    exact ⟨ta, tb, ha, hb, rfl, rfl⟩
  | cons step rest ih =>
    intro s s2 ta tb ha hb hda hdb hrun
    obtain ⟨who, args⟩ := step
    obtain ⟨h, objs, w⟩ := s
    simp only [callMix] at hrun
    cases who with
    | true =>
      simp only [if_true] at hrun
      rcases hc : Functor.call fuel ⟨h, objs, w⟩ a args with ⟨r, s1⟩ | _ | _ | _
      · rw [hc] at hrun
        obtain ⟨u, hown, hdep, _, hfr⟩ := call_step ha hda hc
        have hb1 : Owns s1.impls b tb fpb :=
          owns_frame hb (fun x hx => hfr x (fun hxa => hsep x hxa hx))
        obtain ⟨ua, ub, h1, h2, h3, h4⟩ := ih s1 s2 u tb hown hb1 (by omega) hdb hrun
        exact ⟨ua, ub, h1, h2, by omega, h4⟩
      · simp [hc] at hrun
      · simp [hc] at hrun
      · simp [hc] at hrun
    | false =>
      simp only [Bool.false_eq_true, if_false] at hrun
      rcases hc : Functor.call fuel ⟨h, objs, w⟩ b args with ⟨r, s1⟩ | _ | _ | _
      · rw [hc] at hrun
        obtain ⟨u, hown, hdep, _, hfr⟩ := call_step hb hdb hc
        have ha1 : Owns s1.impls a ta fpa :=
          owns_frame ha (fun x hx => hfr x (hsep x hx))
        obtain ⟨ua, ub, h1, h2, h3, h4⟩ := ih s1 s2 ta u ha1 hown hda (by omega) hrun
        exact ⟨ua, ub, h1, h2, h3, by omega⟩
      · simp [hc] at hrun
      · simp [hc] at hrun
      · simp [hc] at hrun

theorem owns_live {h : List (Option (FunctorImpl S V W E))} {f : Functor}
    {t : Owned S V W E} {fp : List Nat} (ho : Owns h f t fp) :
    ∀ a ∈ fp, ∃ obj, h[a]? = some (some obj) := by
  induction ho with
  | null => simp
  | FunctorHandler hl =>
    intro a ha
    simp at ha; subst ha
    exact ⟨_, hl⟩
  | MemFunHandler hl =>
    intro a ha
    simp at ha; subst ha
    exact ⟨_, hl⟩
  | BinderFirst hl _ _ ih =>
    intro a ha
    simp at ha
    rcases ha with rfl | ha
    · exact ⟨_, hl⟩
    · exact ih a ha
  | Chainer hl _ _ _ _ _ ih1 ih2 =>
    intro a ha
    simp at ha
    rcases ha with rfl | ha | ha
    · exact ⟨_, hl⟩
    · exact ih1 a ha
    · exact ih2 a ha

theorem owns_toBool {h k : List (Option (FunctorImpl S V W E))} {f g : Functor}
    {t : Owned S V W E} {fp fq : List Nat} (hf : Owns h f t fp) (hg : Owns k g t fq) :
    f.toBool = g.toBool := by
  cases hf <;> cases hg <;> rfl

theorem delete_sim (t : Owned S V W E) :
    ∀ (h : List (Option (FunctorImpl S V W E))) (f : Functor) (fp : List Nat) (fuel : Nat)
      (objs : List (Option S)) (w : W),
      Owns h f t fp → t.depth < fuel →
      ∃ h1, deleteImpl fuel ⟨h, objs, w⟩ f.spImpl_ = .done () ⟨h1, objs, w⟩ ∧
        h1.length = h.length ∧ (∀ a ∈ fp, h1[a]? = some none) ∧
        ∀ a, a ∉ fp → h1[a]? = h[a]? := by
  induction t with
  | null =>
    intro h f fp fuel objs w ho hfuel
    cases ho
    cases fuel with
    | zero => simp [Owned.depth] at hfuel
    | succ n => exact ⟨h, by simp [deleteImpl], rfl, by simp, fun _ _ => rfl⟩
  | FunctorHandler c =>
    intro h f fp fuel objs w ho hfuel
    cases ho with
    | FunctorHandler hl =>
      rename_i a
      have ha : a < h.length := (List.getElem?_eq_some.1 hl).1
      cases fuel with
      | zero => simp [Owned.depth] at hfuel
      | succ n =>
        refine ⟨h.set a none, by simp [deleteImpl, hl], by simp, ?_, ?_⟩
        · intro x hx
          simp at hx; subst hx
          simp [ha]
        · intro x hx
          have : a ≠ x := by intro hax; subst hax; simp at hx
          simp [this]
  | MemFunHandler p m =>
    intro h f fp fuel objs w ho hfuel
    cases ho with
    | MemFunHandler hl =>
      rename_i a
      have ha : a < h.length := (List.getElem?_eq_some.1 hl).1
      cases fuel with
      | zero => simp [Owned.depth] at hfuel
      | succ n =>
        refine ⟨h.set a none, by simp [deleteImpl, hl], by simp, ?_, ?_⟩
        · intro x hx
          simp at hx; subst hx
          simp [ha]
        · intro x hx
          have : a ≠ x := by intro hax; subst hax; simp at hx
          simp [this]
  | BinderFirst t b ih =>
    intro h f fp fuel objs w ho hfuel
    cases ho with
    | BinderFirst hl hg hn =>
      rename_i a g fp0
      have ha : a < h.length := (List.getElem?_eq_some.1 hl).1
      cases fuel with
      | zero => simp [Owned.depth] at hfuel
      | succ n =>
        have hd : t.depth < n := by simp [Owned.depth] at hfuel; omega
        obtain ⟨h1, hdel, hlen, hfreed, hfr⟩ := ih h g fp0 n objs w hg hd
        refine ⟨h1.set a none, by simp [deleteImpl, hl, hdel, Res.bind], by simp [hlen], ?_, ?_⟩
        · intro x hx
          simp only [List.mem_cons] at hx
          by_cases hxa : a = x
          · subst hxa
            simp [hlen, ha]
          · rcases hx with rfl | hx
            · exact absurd rfl hxa
            · simp [hxa, hfreed x hx]
        · intro x hx
          have hxa : a ≠ x := by intro hax; subst hax; simp at hx
          have hx0 : x ∉ fp0 := fun hm => hx (by simp [hm])
          simp [hxa, hfr x hx0]
  | Chainer t1 t2 ih1 ih2 =>
    intro h f fp fuel objs w ho hfuel
    cases ho with
    | Chainer hl hg1 hg2 hn1 hn2 hdis =>
      rename_i a g1 g2 fp1 fp2
      have ha : a < h.length := (List.getElem?_eq_some.1 hl).1
      cases fuel with
      | zero => simp [Owned.depth] at hfuel
      | succ n =>
        have hd1 : t1.depth < n := by simp [Owned.depth] at hfuel; omega
        have hd2 : t2.depth < n := by simp [Owned.depth] at hfuel; omega
        obtain ⟨k2, hdel2, hlen2, hfreed2, hfr2⟩ := ih2 h g2 fp2 n objs w hg2 hd2
        have hg1k : Owns k2 g1 t1 fp1 := owns_frame hg1 (fun x hx => hfr2 x (hdis x hx))
        obtain ⟨k1, hdel1, hlen1, hfreed1, hfr1⟩ := ih1 k2 g1 fp1 n objs w hg1k hd1
        refine ⟨k1.set a none, by simp [deleteImpl, hl, hdel2, hdel1, Res.bind],
          by simp [hlen1, hlen2], ?_, ?_⟩
        · intro x hx
          simp only [List.mem_cons, List.mem_append] at hx
          by_cases hxa : a = x
          · subst hxa
            simp [hlen1, hlen2, ha]
          · rcases hx with rfl | hx | hx
            · exact absurd rfl hxa
            · simp [hxa, hfreed1 x hx]
            · have hx1 : x ∉ fp1 := fun hm => hdis x hm hx
              simp [hxa, hfr1 x hx1, hfreed2 x hx]
        · intro x hx
          have hxa : a ≠ x := by intro hax; subst hax; simp at hx
          have hx1 : x ∉ fp1 := fun hm => hx (by simp [hm])
          have hx2 : x ∉ fp2 := fun hm => hx (by simp [hm])
          simp [hxa, hfr1 x hx1, hfr2 x hx2]

theorem reset_null (fuel : Nat) (s : Store S V W E) (p : Option Nat) :
    AutoPtr.reset (fuel + 1) s none p = .done p s := by
  cases p <;> simp [AutoPtr.reset, deleteImpl, Res.bind]

/-! ### Typelists -/

theorem length_ofList (l : List Ty) : TL.Length (Ty.ofList l) = some l.length := by
  induction l with
  | nil => rfl
  | cons T l ih => simp [Ty.ofList, TL.Length, ih, Nat.add_comm]

theorem typeAt_ofList (l : List Ty) : ∀ i, TL.TypeAt (Ty.ofList l) i = l[i]? := by
  induction l with
  | nil => intro i; cases i <;> simp [Ty.ofList, TL.TypeAt]
  | cons T l ih =>
    intro i
    cases i with
    | zero => simp [Ty.ofList, TL.TypeAt]
    | succ k => simp [Ty.ofList, TL.TypeAt, ih]

theorem erase_ofList (l : List Ty) (T : Ty) :
    TL.Erase (Ty.ofList l) T = some (Ty.ofList (l.erase T)) := by
  induction l with
  | nil => rfl
  | cons H l ih =>
    by_cases h : H = T
    · subst h
      simp [Ty.ofList, TL.Erase]
    · have hb : (H == T) = false := by simpa using h
      simp [Ty.ofList, TL.Erase, h, ih, List.erase_cons, hb]

theorem mostDerived_ofList (sup : Ty → Ty → Bool) (tl : List Ty) (T : Ty) :
    ∃ M, TL.MostDerived sup (Ty.ofList tl) T = some M ∧ (M = T ∨ M ∈ tl) ∧
      ((∀ x y z, sup x y = true → sup y z = true → sup x z = true) →
        (∀ x y, sup x y = true → sup y x = true → x = y) →
        (M = T ∨ sup T M = true) ∧
          ∀ D, (D = T ∨ D ∈ tl) → sup M D = true → D = M) := by
  induction tl with
  | nil =>
    refine ⟨T, rfl, Or.inl rfl, fun _ _ => ⟨Or.inl rfl, ?_⟩⟩
    intro D hD _
    simpa using hD
  | cons H tl ih =>
    obtain ⟨C, hC, hmem, hord⟩ := ih
    cases hs : sup C H with
    | true =>
      refine ⟨H, by simp [Ty.ofList, TL.MostDerived, hC, hs, Select], Or.inr (by simp), ?_⟩
      intro htr has
      obtain ⟨hreach, hmax⟩ := hord htr has
      refine ⟨Or.inr ?_, ?_⟩
      · rcases hreach with rfl | hr
        · exact hs
        · exact htr _ _ _ hr hs
      · intro D hD hHD
        have hCD : sup C D = true := htr _ _ _ hs hHD
        by_cases hDH : D = H
        · exact hDH
        · have hD1 : D = T ∨ D ∈ tl := by
            rcases hD with h | h
            · exact Or.inl h
            · simp only [List.mem_cons] at h
              rcases h with h | h
              · exact absurd h hDH
              · exact Or.inr h
          have hDC : D = C := hmax D hD1 hCD
          subst hDC
          exact has _ _ hs hHD
    | false =>
      refine ⟨C, by simp [Ty.ofList, TL.MostDerived, hC, hs, Select], ?_, ?_⟩
      · rcases hmem with h | h
        · exact Or.inl h
        · exact Or.inr (by simp [h])
      · intro htr has
        obtain ⟨hreach, hmax⟩ := hord htr has
        refine ⟨hreach, ?_⟩
        intro D hD hCD
        rcases hD with h | h
        · exact hmax D (Or.inl h) hCD
        · simp only [List.mem_cons] at h
          rcases h with h | h
          · subst h
            rw [hs] at hCD
            cases hCD
          · exact hmax D (Or.inr h) hCD

theorem replace_ofList (tl : List Ty) (T U : Ty) :
    ∃ r, TL.Replace (Ty.ofList tl) T U = some (Ty.ofList r) ∧ r.length = tl.length ∧
      (T ∈ tl → (T :: r).Perm (U :: tl)) ∧ (T ∉ tl → r = tl) := by
  induction tl with
  | nil => exact ⟨[], rfl, rfl, by simp, fun _ => rfl⟩
  | cons H tl ih =>
    obtain ⟨r, hr, hlen, hin, hout⟩ := ih
    by_cases h : H = T
    · subst h
      refine ⟨U :: tl, by simp [Ty.ofList, TL.Replace], rfl, fun _ => List.Perm.swap _ _ _, ?_⟩
      intro hn
      simp at hn
    · refine ⟨H :: r, by simp [Ty.ofList, TL.Replace, h, hr], by simp [hlen], ?_, ?_⟩
      · intro hm
        simp only [List.mem_cons] at hm
        have hT : T ∈ tl := by
          rcases hm with hm | hm
          · exact absurd hm.symm h
          · exact hm
        exact ((List.Perm.swap H T r).trans ((hin hT).cons H)).trans (List.Perm.swap U H tl)
      · intro hn
        have hT : T ∉ tl := fun hm => hn (by simp [hm])
        rw [hout hT]

theorem derivedToFront_ofList (sup : Ty → Ty → Bool) :
    ∀ (n : Nat) (l : List Ty), l.length ≤ n →
      ∃ r, TL.DerivedToFront sup n (Ty.ofList l) = some (Ty.ofList r) ∧ r.Perm l ∧
        ((∀ x y z, sup x y = true → sup y z = true → sup x z = true) →
          (∀ x y, sup x y = true → sup y x = true → x = y) →
          r.Pairwise (fun x y => ¬ (sup x y = true ∧ x ≠ y))) := by
  intro n
  induction n with
  | zero =>
    intro l hl
    have : l = [] := List.eq_nil_of_length_eq_zero (by omega)
    subst this
    exact ⟨[], by simp [Ty.ofList, TL.DerivedToFront], List.Perm.refl _, fun _ _ => List.Pairwise.nil⟩
  | succ n ih =>
    intro l hl
    cases l with
    | nil =>
      exact ⟨[], by simp [Ty.ofList, TL.DerivedToFront], List.Perm.refl _,
        fun _ _ => List.Pairwise.nil⟩
    | cons H tl =>
      obtain ⟨M, hM, hmem, hord⟩ := mostDerived_ofList sup tl H
      obtain ⟨temp, htemp, hlen, hin, hout⟩ := replace_ofList tl M H
      obtain ⟨r, hr, hperm, hpw⟩ := ih temp (by simp at hl; omega)
      have hp : (M :: temp).Perm (H :: tl) := by
        by_cases hMt : M ∈ tl
        · exact hin hMt
        · rcases hmem with h | h
          · rw [h, hout hMt]
          · exact absurd h hMt
      refine ⟨M :: r, by simp [Ty.ofList, TL.DerivedToFront, hM, htemp, hr],
        (hperm.cons M).trans hp, ?_⟩
      intro htr has
      obtain ⟨_, hmax⟩ := hord htr has
      refine List.Pairwise.cons ?_ (hpw htr has)
      intro y hy hbad
      have hy1 : y ∈ M :: temp := List.mem_cons_of_mem _ (hperm.subset hy)
      have hy2 : y ∈ H :: tl := hp.subset hy1
      have hy3 : y = H ∨ y ∈ tl := by simpa using hy2
      exact hbad.2 (hmax y hy3 hbad.1).symm

theorem dividesExample_trans :
    ∀ x y z, dividesExample x y = true → dividesExample y z = true →
      dividesExample x z = true := by
  intro x y z hxy hyz
  cases x <;> cases y <;> cases z <;> simp_all [dividesExample]
  exact Nat.dvd_trans hxy hyz

theorem dividesExample_antisymm :
    ∀ x y, dividesExample x y = true → dividesExample y x = true → x = y := by
  intro x y hxy hyx
  cases x <;> cases y <;> simp_all [dividesExample]
  exact Nat.dvd_antisymm hxy hyx

/-! ### Clone and its assertion -/

theorem Clone_succ (fuel : Nat) (s : Store S V W E) (p : Option Nat) :
    Clone (fuel + 1) s p = CloneWith (DoClone fuel) s p := by
  cases p with
  | none => rfl
  | some a =>
    simp only [Clone, CloneWith]
    rcases hl : s.impls[a]? with _ | _ | obj
    · rfl
    · rfl
    · cases obj with
      | FunctorHandler f => simp [DoClone, Res.bind]
      | MemFunHandler q m => simp [DoClone, Res.bind]
      | BinderFirst f b =>
        simp only [DoClone, Functor.copy]
        rcases Clone fuel s f.spImpl_ with ⟨c, s1⟩ | _ | _ | _ <;> simp [Res.bind]
      | Chainer f1 f2 =>
        simp only [DoClone, Functor.copy]
        rcases Clone fuel s f1.spImpl_ with ⟨c1, s1⟩ | _ | _ | _ <;> simp [Res.bind]
        rcases Clone fuel s1 f2.spImpl_ with ⟨c2, s2⟩ | _ | _ | _ <;> simp [Res.bind]

theorem Clone_ne_aborted (fuel : Nat) :
    ∀ (s : Store S V W E) (p : Option Nat), Clone fuel s p ≠ .aborted := by
  induction fuel with
  | zero => intro s p; simp [Clone]
  | succ n ih =>
    intro s p
    rw [Clone_succ]
    cases p with
    | none => simp [CloneWith]
    | some a =>
      simp only [CloneWith]
      rcases hl : s.impls[a]? with _ | _ | obj
      · simp
      · simp
      · cases obj with
        | FunctorHandler f =>
          simp [DoClone, Res.bind, Store.alloc, typeid]
        | MemFunHandler q m =>
          simp [DoClone, Res.bind, Store.alloc, typeid]
        | BinderFirst f b =>
          simp only [DoClone, Functor.copy]
          have h1 := ih s f.spImpl_
          rcases hc : Clone n s f.spImpl_ with ⟨c, s1⟩ | _ | _ | _
          · simp [Res.bind, Store.alloc, typeid]
          · simp [Res.bind]
          · exact absurd hc h1
          · simp [Res.bind]
        | Chainer f1 f2 =>
          simp only [DoClone, Functor.copy]
          have h1 := ih s f1.spImpl_
          rcases hc1 : Clone n s f1.spImpl_ with ⟨c1, s1⟩ | _ | _ | _
          · have h2 := ih s1 f2.spImpl_
            simp only [Res.bind]
            rcases hc2 : Clone n s1 f2.spImpl_ with ⟨c2, s2⟩ | _ | _ | _
            · simp [Store.alloc, typeid]
            · simp
            · exact absurd hc2 h2
            · simp
          · simp [Res.bind]
          · exact absurd hc1 h1
          · simp [Res.bind]

theorem owns_typeid {h k : List (Option (FunctorImpl S V W E))} {a : Nat} {g : Functor}
    {t : Owned S V W E} {fp fq : List Nat} (hf : Owns h ⟨some a⟩ t fp) (hg : Owns k g t fq) :
    ∃ c pObj cObj, g = ⟨some c⟩ ∧ c ∈ fq ∧ h[a]? = some (some pObj) ∧
      k[c]? = some (some cObj) ∧ typeid cObj = typeid pObj := by
  cases hf with
  | FunctorHandler hl =>
    cases hg with
    | FunctorHandler hk => exact ⟨_, _, _, rfl, by simp, hl, hk, rfl⟩
  | MemFunHandler hl =>
    cases hg with
    | MemFunHandler hk => exact ⟨_, _, _, rfl, by simp, hl, hk, rfl⟩
  | BinderFirst hl _ _ =>
    cases hg with
    | BinderFirst hk _ _ => exact ⟨_, _, _, rfl, by simp, hl, hk, rfl⟩
  | Chainer hl _ _ _ _ _ =>
    cases hg with
    | Chainer hk _ _ _ _ _ => exact ⟨_, _, _, rfl, by simp, hl, hk, rfl⟩

theorem observe_done_iff {α : Type} {r1 r2 : Res (Store S V W E) α}
    (h : r1.observe = r2.observe) (v : α) :
    (∃ s2, r1 = .done v s2) ↔ (∃ s2, r2 = .done v s2) := by
  cases r1 <;> cases r2 <;> simp_all [Res.observe]

theorem observe_undefined_iff {α : Type} {r1 r2 : Res (Store S V W E) α}
    (h : r1.observe = r2.observe) : r1 = .undefined ↔ r2 = .undefined := by
  cases r1 <;> cases r2 <;> simp_all [Res.observe]

theorem append_ofList_other (l : List Ty) (n : Nat) :
    TL.Append (Ty.ofList l) (.other n) = some (Ty.ofList (l ++ [.other n])) := by
  induction l with
  | nil => rfl
  | cons H l ih => simp [Ty.ofList, TL.Append, ih]

theorem append_ofList_ofList (l l2 : List Ty) :
    TL.Append (Ty.ofList l) (Ty.ofList l2) = some (Ty.ofList (l ++ l2)) := by
  induction l with
  | nil => cases l2 <;> rfl
  | cons H l ih => simp [Ty.ofList, TL.Append, ih]

theorem reverse_ofList (ns : List Nat) :
    TL.Reverse (Ty.ofList (ns.map Ty.other)) = some (Ty.ofList (ns.reverse.map Ty.other)) := by
  induction ns with
  | nil => rfl
  | cons n ns ih =>
    simp [Ty.ofList, TL.Reverse, ih, append_ofList_other]

theorem eraseAll_ofList (l : List Ty) (T : Ty) :
    TL.EraseAll (Ty.ofList l) T = some (Ty.ofList (l.filter (fun x => decide (x ≠ T)))) := by
  induction l with
  | nil => rfl
  | cons H l ih =>
    by_cases h : H = T
    · simp [Ty.ofList, TL.EraseAll, h, ih]
    · simp [Ty.ofList, TL.EraseAll, h, ih]

theorem indexOf_ofList_not_mem (l : List Ty) (T : Ty) (hT : T ∉ l) :
    TL.IndexOf (Ty.ofList l) T = some (-1) := by
  induction l with
  | nil => rfl
  | cons H l ih =>
    have hH : H ≠ T := fun h => hT (by simp [h])
    have hl : T ∉ l := fun h => hT (by simp [h])
    simp [Ty.ofList, TL.IndexOf, hH, ih hl]

theorem callBoth_observe {k : List (Option (FunctorImpl S V W E))} {x y : Functor}
    {t1 t2 : Owned S V W E} {fq1 fq2 : List Nat} (hx : Owns k x t1 fq1)
    (hy : Owns k y t2 fq2) (hsep : ∀ a ∈ fq1, a ∉ fq2) {fuel : Nat}
    (hfuel1 : t1.depth < fuel) (hfuel2 : t2.depth < fuel)
    (objs : List (Option S)) (w : W) (args : List V) :
    (callBoth fuel ⟨k, objs, w⟩ x y args).observe =
      Owned.observe ((Owned.Chainer t1 t2).call args objs w) := by
  obtain ⟨c1, c2, c3, c4⟩ := call_sim t1 k x fq1 fuel objs w args hx hfuel1
  simp only [Owned.call, callBoth]
  rcases hc1 : t1.call args objs w with ⟨r, u, o1, w1⟩ | _ | _ | _
  · obtain ⟨k1, hcall, _, _, hfr⟩ := c1 _ _ _ _ hc1
    cases r with
    | error e => simp [hcall, Res.observe, Owned.observe]
    | ok v =>
      have hy1 : Owns k1 y t2 fq2 :=
        owns_frame hy (fun a ha => hfr a (fun ha1 => hsep a ha1 ha))
      simp only [hcall]
      rw [call_observe hy1 hfuel2 o1 w1 args]
      rcases t2.call args o1 w1 with ⟨r2, u2, o2, w2⟩ | _ | _ | _ <;> simp [Owned.observe]
  · simp [c2 hc1, Res.observe, Owned.observe]
  · exact absurd hc1 c3
  · exact absurd hc1 c4

end Lemmas

/-! ## The claims -/

section Claims

variable {S V W E : Type}

/-- C1. Binder correctness: for an adapter `f` that is the sole owner of its
implementation objects, `BindFirst(f, b)` completes with a functor `g`, leaves
the outside state and every existing heap cell as they were, and calling `g`
with the remaining arguments `rest` shows the caller the same result or thrown
exception and the same outside state as calling `f` with `b` prepended; with
fuel above the nesting depth neither call runs out of fuel. `rest = []` is
`BindFirst(f,b)() = f(b)` and `rest = [p1]` is `BindFirst(f,b)(p1) = f(b,p1)`. -/
theorem BindFirst_call_eq (s : Store S V W E) (f : Functor) (t : Owned S V W E)
    (fp : List Nat) (fuel : Nat) (b : V) (rest : List V)
    (hf : Owns s.impls f t fp) (hfuel : t.depth + 1 < fuel) :
    ∃ g s1, BindFirst fuel s f b = .done g s1 ∧
      s1.objs = s.objs ∧ s1.world = s.world ∧
      (∀ a, a < s.impls.length → s1.impls[a]? = s.impls[a]?) ∧
      (Functor.call fuel s1 g rest).observe = (Functor.call fuel s1 f (b :: rest)).observe ∧
      (Functor.call fuel s1 f (b :: rest)).observe = (Functor.call fuel s f (b :: rest)).observe ∧
      Functor.call fuel s1 g rest ≠ .outOfFuel ∧
      Functor.call fuel s f (b :: rest) ≠ .outOfFuel := by
  obtain ⟨h, objs, w⟩ := s
  obtain ⟨a, ext, fp1, hb, hg, _⟩ := bindFirst_sim hf (by omega : t.depth < fuel) objs w b
  refine ⟨⟨some a⟩, ⟨h ++ ext, objs, w⟩, hb, rfl, rfl, ?_, ?_, ?_, ?_, ?_⟩
  · intro x hx
    exact List.getElem?_append_left hx
  · rw [call_observe hg (by simp [Owned.depth]; omega) objs w rest,
      call_observe (owns_append hf ext) (by omega) objs w (b :: rest),
      observe_binderFirst]
  · rw [call_observe (owns_append hf ext) (by omega) objs w (b :: rest),
      call_observe hf (by omega) objs w (b :: rest)]
  · exact (call_ne_outOfFuel hg (by simp [Owned.depth]; omega) objs w rest).1
  · exact (call_ne_outOfFuel hf (by omega) objs w (b :: rest)).1

/-- Witness for C1: with `add(x, y) = x + y`, `BindFirst(add, 5)` applied to 3
yields 8, as does `add(5, 3)`. -/
theorem BindFirst_call_eq_witness :
    (∃ g s1, BindFirst 3 addProgram.2 addProgram.1 (5 : Int) = .done g s1 ∧
      s1.objs = addProgram.2.objs ∧ s1.world = addProgram.2.world ∧
      (∀ a, a < addProgram.2.impls.length → s1.impls[a]? = addProgram.2.impls[a]?) ∧
      (Functor.call 3 s1 g [3]).observe = (Functor.call 3 s1 addProgram.1 [5, 3]).observe ∧
      (Functor.call 3 s1 addProgram.1 [5, 3]).observe =
        (Functor.call 3 addProgram.2 addProgram.1 [5, 3]).observe ∧
      Functor.call 3 s1 g [3] ≠ .outOfFuel ∧
      Functor.call 3 addProgram.2 addProgram.1 [5, 3] ≠ .outOfFuel) ∧
    (Functor.call 3 addProgram.2 addProgram.1 [5, 3]).observe = .done (.ok 8) ([], []) ∧
    ((BindFirst 3 addProgram.2 addProgram.1 (5 : Int)).bind
      (fun g s1 => Functor.call 3 s1 g [3])).observe = .done (.ok 8) ([], []) :=
  ⟨BindFirst_call_eq addProgram.2 addProgram.1 (.FunctorHandler add) [0] 3 5 [3]
    (Owns.FunctorHandler rfl) (by decide), rfl, rfl⟩

/-- C2, as stated, fails when both arguments are the same functor object:
with the call-counting functor `f`, the call of `Chain(f, f)` returns 1, the
result of the chain's second copy of `f` as it was at construction, while the
statement `f(), f()` on `f` itself returns 2, the result of `f` in the state
its first call left. -/
theorem Chain_same_functor_differs :
    ((Chain 3 counterProgram.2 counterProgram.1 counterProgram.1).bind
      (fun g s1 => Functor.call 3 s1 g [])).observe = .done (.ok 1) ([], []) ∧
    ((Chain 3 counterProgram.2 counterProgram.1 counterProgram.1).bind
      (fun _ s1 => callBoth 3 s1 counterProgram.1 counterProgram.1 [])).observe =
        .done (.ok 2) ([], []) ∧
    ((Chain 3 counterProgram.2 counterProgram.1 counterProgram.1).bind
      (fun g s1 => Functor.call 3 s1 g [])).observe ≠
    ((Chain 3 counterProgram.2 counterProgram.1 counterProgram.1).bind
      (fun _ s1 => callBoth 3 s1 counterProgram.1 counterProgram.1 [])).observe := by
  have h1 : ((Chain 3 counterProgram.2 counterProgram.1 counterProgram.1).bind
      (fun g s1 => Functor.call 3 s1 g [])).observe = .done (.ok 1) ([], []) := rfl
  have h2 : ((Chain 3 counterProgram.2 counterProgram.1 counterProgram.1).bind
      (fun _ s1 => callBoth 3 s1 counterProgram.1 counterProgram.1 [])).observe =
        .done (.ok 2) ([], []) := rfl
  refine ⟨h1, h2, ?_⟩
  rw [h1, h2]
  intro h
  simp at h

/-- C2, amended. Chain result and ordering: for all adapters `f1`, `f2` that
own their object graphs, the same object twice included, `Chain(f1, f2)`
completes with a functor `g` and leaves the outside state and every existing
heap cell as they were. The new `Chainer` holds two functors `c1`, `c2` that
own copies of the graphs of `f1` and `f2` in separate new cells, and calling
`g` shows the caller exactly what the statement `c1(args), c2(args)` shows: one
call of the copy of `f1`, whose normal result is discarded, then one call of
the copy of `f2` with the same arguments in the state the first call left,
whose outcome is the outcome of the chain. When `f1` and `f2` own separate
implementation objects, this is also what `f1(args), f2(args)` on the two
adapters themselves shows. With fuel above the nesting depth the call of `g`
does not run out of fuel. -/
theorem Chain_call_eq (s : Store S V W E) (f1 f2 : Functor) (t1 t2 : Owned S V W E)
    (fp1 fp2 : List Nat) (fuel : Nat) (args : List V)
    (h1 : Owns s.impls f1 t1 fp1) (h2 : Owns s.impls f2 t2 fp2)
    (hfuel1 : t1.depth + 1 < fuel) (hfuel2 : t2.depth + 1 < fuel) :
    ∃ g s1 a c1 c2 fq1 fq2, Chain fuel s f1 f2 = .done g s1 ∧ g = ⟨some a⟩ ∧
      s1.objs = s.objs ∧ s1.world = s.world ∧
      (∀ x, x < s.impls.length → s1.impls[x]? = s.impls[x]?) ∧
      s1.impls[a]? = some (some (.Chainer c1 c2)) ∧
      Owns s1.impls c1 t1 fq1 ∧ Owns s1.impls c2 t2 fq2 ∧ (∀ x ∈ fq1, x ∉ fq2) ∧
      (∀ x, x ∈ fq1 ∨ x ∈ fq2 → s.impls.length ≤ x) ∧
      (Functor.call fuel s1 g args).observe = (callBoth fuel s1 c1 c2 args).observe ∧
      ((∀ x ∈ fp1, x ∉ fp2) →
        (Functor.call fuel s1 g args).observe = (callBoth fuel s1 f1 f2 args).observe) ∧
      Functor.call fuel s1 g args ≠ .outOfFuel := by
  obtain ⟨h, objs, w⟩ := s
  obtain ⟨a, ext, fpc, hc, hg, hge⟩ :=
    chain_sim h1 h2 (by omega : t1.depth < fuel) (by omega : t2.depth < fuel) objs w
  have hgd : (Owned.Chainer t1 t2).depth < fuel := by simp [Owned.depth]; omega
  have hobs := call_observe hg hgd objs w args
  cases hg with
  | Chainer hl hg1 hg2 hn1 hn2 hdis =>
    rename_i c1 c2 fq1 fq2
    refine ⟨⟨some a⟩, ⟨h ++ ext, objs, w⟩, a, c1, c2, fq1, fq2, hc, rfl, rfl, rfl, ?_, hl,
      hg1, hg2, hdis, ?_, ?_, ?_, ?_⟩
    · intro x hx
      exact List.getElem?_append_left hx
    · intro x hx
      rcases hx with hx | hx
      · exact hge x (by simp [hx])
      · exact hge x (by simp [hx])
    · rw [hobs, callBoth_observe hg1 hg2 hdis (by omega) (by omega) objs w args]
    · intro hsep
      rw [hobs, callBoth_observe (owns_append h1 ext) (owns_append h2 ext) hsep (by omega)
        (by omega) objs w args]
    · exact (call_ne_outOfFuel (Owns.Chainer hl hg1 hg2 hn1 hn2 hdis) hgd objs w args).1

/-- Witness for C2: `chain(logAndReturn, double)` called with 4 returns 8 and
the log holds exactly the one entry 4, as `logAndReturn(4), double(4)` on the
two functors does. -/
theorem Chain_call_eq_witness :
    (∃ g s1, Chain 3 chainProgram.2.2 chainProgram.1 chainProgram.2.1 = .done g s1 ∧
      (Functor.call 3 s1 g [4]).observe =
        (callBoth 3 s1 chainProgram.1 chainProgram.2.1 [4]).observe ∧
      Functor.call 3 s1 g [4] ≠ .outOfFuel) ∧
    ((Chain 3 chainProgram.2.2 chainProgram.1 chainProgram.2.1).bind
      (fun g s1 => Functor.call 3 s1 g [4])).observe = .done (.ok 8) ([], [4]) :=
  ⟨match Chain_call_eq chainProgram.2.2 chainProgram.1 chainProgram.2.1
      (.FunctorHandler logAndReturn) (.FunctorHandler double) [0] [1] 3 [4]
      (Owns.FunctorHandler rfl) (Owns.FunctorHandler rfl) (by decide) (by decide) with
    | ⟨g, s1, _, _, _, _, _, hc, _, _, _, _, _, _, _, _, _, _, hsame, hfuel⟩ =>
      ⟨g, s1, hc, hsame (by decide), hfuel⟩,
    rfl⟩

/-- C3. Chain failure short-circuit: if the call `f1(args)` throws `e`, then
for every second adapter `f2` (empty or not) the call of `Chain(f1, f2)` with
`args` throws the same `e`; the outside state after it is the state `f1`'s
failing call left, the existing heap cells of `f2` are as before, and the chain
still owns its copy of `f2` exactly as it was copied. -/
theorem Chain_failure (s : Store S V W E) (f1 f2 : Functor) (t1 t2 : Owned S V W E)
    (fp1 fp2 : List Nat) (fuel : Nat) (args : List V) (e : E) (sf : Store S V W E)
    (h1 : Owns s.impls f1 t1 fp1) (h2 : Owns s.impls f2 t2 fp2)
    (hfuel1 : t1.depth + 1 < fuel) (hfuel2 : t2.depth + 1 < fuel)
    (hfail : Functor.call fuel s f1 args = .done (.error e) sf) :
    ∃ g s1 s2, Chain fuel s f1 f2 = .done g s1 ∧
      Functor.call fuel s1 g args = .done (.error e) s2 ∧
      s2.objs = sf.objs ∧ s2.world = sf.world ∧
      (∀ a, a < s.impls.length → s2.impls[a]? = s.impls[a]?) ∧
      ∃ u1 fpc, Owns s2.impls g (.Chainer u1 t2) fpc := by
  obtain ⟨h, objs, w⟩ := s
  obtain ⟨a, ext, fpc, hc, hg, hge⟩ :=
    chain_sim h1 h2 (by omega : t1.depth < fuel) (by omega : t2.depth < fuel) objs w
  have hgd : (Owned.Chainer t1 t2).depth < fuel := by simp [Owned.depth]; omega
  obtain ⟨c1, c2, c3, c4⟩ := call_sim t1 h f1 fp1 fuel objs w args h1 (by omega)
  obtain ⟨d1, d2, d3, d4⟩ := call_sim (.Chainer t1 t2) (h ++ ext) ⟨some a⟩ fpc fuel objs w args
    hg hgd
  rcases hc1 : t1.call args objs w with ⟨r, u, o1, w1⟩ | _ | _ | _
  · obtain ⟨k, hcall, _, _, _⟩ := c1 _ _ _ _ hc1
    rw [hcall] at hfail
    simp only [Res.done.injEq] at hfail
    obtain ⟨rfl, rfl⟩ := hfail
    have hcg : (Owned.Chainer t1 t2).call args objs w =
        .done (.error e) (.Chainer u t2, o1, w1) := by
      simp [Owned.call, hc1]
    obtain ⟨k2, hcall2, hown2, _, hfr2⟩ := d1 _ _ _ _ hcg
    refine ⟨⟨some a⟩, ⟨h ++ ext, objs, w⟩, ⟨k2, o1, w1⟩, hc, hcall2, rfl, rfl, ?_, u, fpc, hown2⟩
    intro x hx
    have hx1 : x ∉ fpc := by
      intro hm
      have hle : h.length ≤ x := hge x hm
      have hlt : x < h.length := hx
      omega
    rw [hfr2 x hx1]
    exact List.getElem?_append_left hx
  · rw [c2 hc1] at hfail
    cases hfail
  · exact absurd hc1 c3
  · exact absurd hc1 c4

/-- Witness for C3: `failing` logs its argument and throws 7; the chain of
`failing` and `logAndReturn` called with 4 throws 7 and the log holds the one
entry that `failing` wrote. -/
theorem Chain_failure_witness :
    (∃ g s1 s2, Chain 3 failProgram.2.2 failProgram.1 failProgram.2.1 = .done g s1 ∧
      Functor.call 3 s1 g [4] = .done (.error 7) s2 ∧
      s2.objs = ([] : List (Option Nat)) ∧ s2.world = [4] ∧
      (∀ a, a < failProgram.2.2.impls.length → s2.impls[a]? = failProgram.2.2.impls[a]?) ∧
      ∃ u1 fpc, Owns s2.impls g (.Chainer u1 (.FunctorHandler logAndReturn)) fpc) :=
  Chain_failure failProgram.2.2 failProgram.1 failProgram.2.1
    (.FunctorHandler failing) (.FunctorHandler logAndReturn) [0] [1] 3 [4] 7
    ⟨[some (.FunctorHandler { failing with state := 1 }),
      some (.FunctorHandler logAndReturn)], [], [4]⟩
    (Owns.FunctorHandler rfl) (Owns.FunctorHandler rfl) (by decide) (by decide) rfl

/-- C4, as stated, fails: the call of a default-constructed functor
dereferences its null `spImpl_`, which is undefined behaviour; no failure is
reported to the caller. -/
theorem empty_call_not_reported :
    (Functor.call 1 emptyStore Functor.empty []).reportsFailure = false :=
  rfl

/-- C4, amended: at every arity and in every state the call of a
default-constructed functor is the dereference of a null `spImpl_`: the
behaviour is undefined, so no result value is returned and no failure is
reported by the library. -/
theorem empty_call_undefined (fuel : Nat) (s : Store S V W E) (args : List V) :
    Functor.call (fuel + 1) s Functor.empty args = .undefined ∧
      (Functor.call (fuel + 1) s Functor.empty args).returnsValue = false ∧
      (Functor.call (fuel + 1) s Functor.empty args).reportsFailure = false :=
  ⟨rfl, rfl, rfl⟩

/-- C6. Truth-test correctness: the boolean conversion of a functor is true
iff its `spImpl_` is non-null; a default-constructed functor tests false, a
functor constructed from a callable or from an object handle and a member
function tests true, and a functor constructed from an ownership handle holds
that handle's pointer (so it tests true when the handle pointed to an
implementation) while the handle it was taken from is left null. -/
theorem truth_test :
    (∀ f : Functor, f.toBool = true ↔ f.spImpl_ ≠ none) ∧
    Functor.empty.toBool = false ∧
    (∀ (s : Store S V W E) (c : Callable S V W E), (Functor.ofFun s c).1.toBool = true ∧
      (Functor.ofFun s c).2.impls[s.impls.length]? = some (some (.FunctorHandler c)) ∧
      (Functor.ofFun s c).1.spImpl_ = some s.impls.length) ∧
    (∀ (s : Store S V W E) (p : Nat) (m : Method S V W E),
      (Functor.ofMemFn s p m).1.toBool = true ∧
      (Functor.ofMemFn s p m).2.impls[s.impls.length]? = some (some (.MemFunHandler p m)) ∧
      (Functor.ofMemFn s p m).1.spImpl_ = some s.impls.length) ∧
    (∀ a : Nat, (Functor.ofAutoPtr (some a)).1.toBool = true ∧
      (Functor.ofAutoPtr (some a)).1.spImpl_ = some a ∧
      (Functor.ofAutoPtr (some a)).2 = none) ∧
    ((Functor.ofAutoPtr none).1.toBool = false ∧ (Functor.ofAutoPtr none).2 = none) := by
  refine ⟨?_, rfl, ?_, ?_, ?_, rfl, rfl⟩
  · intro f
    rcases f with ⟨_ | a⟩ <;> simp [Functor.toBool]
  · intro s c
    exact ⟨rfl, List.getElem?_concat_length _ _, rfl⟩
  · intro s p m
    exact ⟨rfl, List.getElem?_concat_length _ _, rfl⟩
  · intro a
    exact ⟨rfl, rfl, rfl⟩

/-- C8. CallableHandler forwarding: the functor constructed from a callable
`f`, called with any argument list (`[]`, `[p1]`, `[p1, p2]` are the three
overloads), passes the list unchanged to `f` on the stored copy of `f` and in
the current outside state, returns `f`'s result or thrown exception unchanged,
and keeps the data members and the outside state as `f` left them. -/
theorem ofFun_call (fuel : Nat) (s : Store S V W E) (f : Callable S V W E) (args : List V) :
    Functor.call (fuel + 1) (Functor.ofFun s f).2 (Functor.ofFun s f).1 args =
      .done (f.op f.state args s.world).1
        ⟨s.impls ++ [some (.FunctorHandler { f with state := (f.op f.state args s.world).2.1 })],
          s.objs, (f.op f.state args s.world).2.2⟩ := by
  simp [Functor.call, Functor.ofFun, Store.alloc]

/-- C9. Member-function adapter round-trip: for a handle `p` to a live object,
the functor constructed from `(p, m)`, called with any argument list (`[]`,
`[p1]`, `[p1, p2]` are the three overloads), completes with the result or
thrown exception of `m` run on the object with those arguments, and leaves the
target object and the outside state exactly as the direct call
`((*p).*m)(args)` leaves them. -/
theorem ofMemFn_call (fuel : Nat) (s : Store S V W E) (p : Nat) (m : Method S V W E)
    (args : List V) (o : S) (hp : s.objs[p]? = some (some o)) :
    (Functor.call (fuel + 1) (Functor.ofMemFn s p m).2 (Functor.ofMemFn s p m).1 args).observe =
        (callMember s p m args).observe ∧
      (callMember s p m args).observe =
        .done (m o args s.world).1
          (s.objs.set p (some (m o args s.world).2.1), (m o args s.world).2.2) := by
  simp [Functor.call, Functor.ofMemFn, Store.alloc, callMember, hp, Res.observe]

/-- Witness for C9: `bump(5)` through the functor built from the handle of a
counter at 10 returns 15 and leaves the counter at 15, as the direct call
does. -/
theorem ofMemFn_call_witness :
    (Functor.call 1 (Functor.ofMemFn objStore 0 bump).2 (Functor.ofMemFn objStore 0 bump).1
        [5]).observe = (callMember objStore 0 bump [5]).observe ∧
      (callMember objStore 0 bump [5]).observe =
        .done (bump 10 [5] objStore.world).1
          (objStore.objs.set 0 (some (bump 10 [5] objStore.world).2.1),
            (bump 10 [5] objStore.world).2.2) :=
  ofMemFn_call 0 objStore 0 bump [5] 10 rfl

/-- C10. Binder arity: for every non-empty parameter list
`Typelist<Head, Tail>` the parameter list of the bound functor type is exactly
`Tail`: every position `i` of it holds the type at position `i + 1` of the
original list, also when `Head` occurs again in `Tail`; when the original
list has a length, the result has that length minus one; for a unary functor
the result is `NullType`, the parameter list of a nullary functor. -/
theorem BinderFirstTraits_ParmList (Head Tail : Ty) :
    Private.BinderFirstTraits.ParmList (.Typelist Head Tail) = some Tail ∧
      (∀ i, TL.TypeAt Tail i = TL.TypeAt (.Typelist Head Tail) (i + 1)) ∧
      TL.Length Tail = (TL.Length (.Typelist Head Tail)).map (· - 1) ∧
      TL.Length (.Typelist Head Tail) = (TL.Length Tail).map (· + 1) ∧
      Private.BinderFirstTraits.ParmList (TYPELIST_1 Head) = some .NullType ∧
      Private.BinderFirstTraits.ParmList (.Typelist Head (.Typelist Head Tail)) =
        some (.Typelist Head Tail) := by
  refine ⟨?_, ?_, ?_, ?_, ?_, ?_⟩
  · simp [Private.BinderFirstTraits.ParmList, TL.TypeAt, TL.Erase]
  · intro i
    simp [TL.TypeAt]
  · simp only [TL.Length]
    rcases TL.Length Tail with _ | k <;> simp
  · simp only [TL.Length]
    rcases TL.Length Tail with _ | k <;> simp [Nat.add_comm]
  · simp [Private.BinderFirstTraits.ParmList, TL.TypeAt, TL.Erase, TYPELIST_1]
  · simp [Private.BinderFirstTraits.ParmList, TL.TypeAt, TL.Erase]

/-- C5. Copy independence: for an adapter `a` that is the sole owner of its
implementation objects, the copy constructor completes with a functor `b`
that owns an equal object graph in cells none of which belongs to `a`; and at
every point that a client reaches by calling through `a` and `b` in any
order, both still own their graphs in their own cells, a call through `b`
changes no cell of `a`, and a call through `a` changes no cell of `b`. -/
theorem copy_independent (s : Store S V W E) (a : Functor) (t : Owned S V W E)
    (fp : List Nat) (fuel : Nat) (ha : Owns s.impls a t fp) (hfuel : t.depth < fuel) :
    ∃ b s1 fpb, Functor.copy fuel s a = .done b s1 ∧
      Owns s1.impls a t fp ∧ Owns s1.impls b t fpb ∧ (∀ x ∈ fp, x ∉ fpb) ∧
      ∀ steps s2, callMix fuel a b s1 steps = some s2 →
        (∃ ua ub, Owns s2.impls a ua fp ∧ Owns s2.impls b ub fpb) ∧
        (∀ (args : List V) r s3, Functor.call fuel s2 b args = .done r s3 →
          ∀ x ∈ fp, s3.impls[x]? = s2.impls[x]?) ∧
        (∀ (args : List V) r s3, Functor.call fuel s2 a args = .done r s3 →
          ∀ x ∈ fpb, s3.impls[x]? = s2.impls[x]?) := by
  obtain ⟨h, objs, w⟩ := s
  obtain ⟨c, ext, fpb, hc, hb, hge⟩ := clone_sim t h a fp fuel objs w ha hfuel
  have hlt := owns_lt ha
  have hsep : ∀ x ∈ fp, x ∉ fpb := by
    intro x hx hxb
    have h1 : x < h.length := hlt x hx
    have h2 := hge x hxb
    omega
  refine ⟨⟨c⟩, ⟨h ++ ext, objs, w⟩, fpb, by simp [Functor.copy, hc], owns_append ha ext, hb,
    hsep, ?_⟩
  intro steps s2 hrun
  obtain ⟨ua, ub, hua, hub, hda, hdb⟩ :=
    callMix_inv hsep steps ⟨h ++ ext, objs, w⟩ s2 t t (owns_append ha ext) hb hfuel hfuel hrun
  refine ⟨⟨ua, ub, hua, hub⟩, ?_, ?_⟩
  · intro args r s3 hcall x hx
    obtain ⟨h2, o2, w2⟩ := s2
    obtain ⟨_, _, _, _, hfr⟩ := call_step hub (by omega) hcall
    exact hfr x (hsep x hx)
  · intro args r s3 hcall x hx
    obtain ⟨h2, o2, w2⟩ := s2
    obtain ⟨_, _, _, _, hfr⟩ := call_step hua (by omega) hcall
    exact hfr x (fun hxa => hsep x hxa hx)

/-- Witness for C5: with a call-counting callable, calling the copy 3 times
and the original 2 times leaves the two counters at 2 (original) and 3
(copy). -/
theorem copy_independent_witness :
    (∃ b s1 fpb, Functor.copy 2 counterProgram.2 counterProgram.1 = .done b s1 ∧
      Owns s1.impls counterProgram.1 (.FunctorHandler counter) [0] ∧
      Owns s1.impls b (.FunctorHandler counter) fpb ∧ (∀ x ∈ [0], x ∉ fpb) ∧
      ∀ steps s2, callMix 2 counterProgram.1 b s1 steps = some s2 →
        (∃ ua ub, Owns s2.impls counterProgram.1 ua [0] ∧ Owns s2.impls b ub fpb) ∧
        (∀ (args : List Int) r s3, Functor.call 2 s2 b args = .done r s3 →
          ∀ x ∈ [0], s3.impls[x]? = s2.impls[x]?) ∧
        (∀ (args : List Int) r s3, Functor.call 2 s2 counterProgram.1 args = .done r s3 →
          ∀ x ∈ fpb, s3.impls[x]? = s2.impls[x]?)) ∧
    counterRun = some (some 2, some 3) :=
  ⟨copy_independent counterProgram.2 counterProgram.1 (.FunctorHandler counter) [0] 2
    (Owns.FunctorHandler rfl) (by decide), rfl⟩

/-- C7. Assignment: let the functor object at position `lhsIx` own the graph
`ta` and the one at `rhsIx` own `tr`, in separate cells unless both positions
are the same object. Then `operator=` completes; the assigned object has the
truth value of `rhs` and owns a copy of `tr`, so that every call of it shows
the caller what the same call of `rhs` before the assignment shows; every cell
of the previous implementation was live and is released, and since deleting a
released cell is undefined and the assignment completes, none is released
twice; all other existing cells, the outside state and, when the two objects
differ, `rhs` and what it owns are unchanged. -/
theorem assign_correct (s : Store S V W E) (vars : List Functor) (lhsIx rhsIx : Nat)
    (a r : Functor) (ta tr : Owned S V W E) (fpa fpr : List Nat) (fuel : Nat)
    (hlhs : vars[lhsIx]? = some a) (hrhs : vars[rhsIx]? = some r)
    (ha : Owns s.impls a ta fpa) (hr : Owns s.impls r tr fpr)
    (hsep : lhsIx ≠ rhsIx → ∀ x ∈ fpa, x ∉ fpr)
    (hfa : ta.depth < fuel) (hfr : tr.depth < fuel) :
    ∃ c s2 fpc, Functor.assign fuel s vars lhsIx rhsIx = .done (vars.set lhsIx c) s2 ∧
      s2.objs = s.objs ∧ s2.world = s.world ∧
      c.toBool = r.toBool ∧
      Owns s2.impls c tr fpc ∧
      (∀ args : List V,
        (Functor.call fuel s2 c args).observe = (Functor.call fuel s r args).observe) ∧
      (∀ x ∈ fpa, (∃ obj, s.impls[x]? = some (some obj)) ∧ s2.impls[x]? = some none) ∧
      (∀ x, x < s.impls.length → x ∉ fpa → s2.impls[x]? = s.impls[x]?) ∧
      (lhsIx ≠ rhsIx → (vars.set lhsIx c)[rhsIx]? = some r ∧ Owns s2.impls r tr fpr) := by
  obtain ⟨h, objs, w⟩ := s
  obtain ⟨c, ext, fpc, hc, hco, hge⟩ := clone_sim tr h r fpr fuel objs w hr hfr
  obtain ⟨h3, hdel, hlen3, hfreed, hfr3⟩ :=
    delete_sim ta (h ++ ext) a fpa fuel objs w (owns_append ha ext) hfa
  have hlta := owns_lt ha
  have hkeep : ∀ x ∈ fpc, h3[x]? = (h ++ ext)[x]? := by
    intro x hx
    apply hfr3
    intro hxa
    have h1 : x < h.length := hlta x hxa
    have h2 : h.length ≤ x := hge x hx
    omega
  have hc3 : Owns h3 ⟨c⟩ tr fpc := owns_frame hco hkeep
  obtain ⟨n, rfl⟩ : ∃ n, fuel = n + 1 := ⟨fuel - 1, by omega⟩
  refine ⟨⟨c⟩, ⟨h3, objs, w⟩, fpc, ?_, rfl, rfl, owns_toBool hco hr, hc3, ?_, ?_, ?_, ?_⟩
  · simp only [Functor.assign, hlhs, hrhs, Functor.copy, hc, Res.bind, AutoPtr.release,
      reset_null, hdel]
  · intro args
    rw [call_observe hc3 hfr objs w args, call_observe hr hfr objs w args]
  · intro x hx
    exact ⟨owns_live ha x hx, hfreed x hx⟩
  · intro x hx hxa
    rw [hfr3 x hxa]
    exact List.getElem?_append_left hx
  · intro hne
    refine ⟨by rw [List.getElem?_set_ne hne]; exact hrhs, ?_⟩
    refine owns_frame hr (fun x hx => ?_)
    rw [hfr3 x (fun hxa => hsep hne x hxa hx)]
    exact List.getElem?_append_left (owns_lt hr x hx)

/-- Witness for C7: with `vars[0]` built from `counter` and `vars[1]` built
from `double`, the assignment `vars[0] = vars[1]` completes, and so does the
self-assignment `vars[1] = vars[1]`. -/
theorem assign_correct_witness :
    (∃ c s2 fpc, Functor.assign 2 assignProgram.2 assignProgram.1 0 1 =
        .done (assignProgram.1.set 0 c) s2 ∧
      s2.objs = assignProgram.2.objs ∧ s2.world = assignProgram.2.world ∧
      c.toBool = (⟨some 1⟩ : Functor).toBool ∧
      Owns s2.impls c (.FunctorHandler double) fpc ∧
      (∀ args : List Int,
        (Functor.call 2 s2 c args).observe =
          (Functor.call 2 assignProgram.2 ⟨some 1⟩ args).observe) ∧
      (∀ x ∈ [0], (∃ obj, assignProgram.2.impls[x]? = some (some obj)) ∧
        s2.impls[x]? = some none) ∧
      (∀ x, x < assignProgram.2.impls.length → x ∉ [0] →
        s2.impls[x]? = assignProgram.2.impls[x]?) ∧
      ((0 : Nat) ≠ 1 → (assignProgram.1.set 0 c)[1]? = some ⟨some 1⟩ ∧
        Owns s2.impls ⟨some 1⟩ (.FunctorHandler double) [1])) ∧
    ((Functor.assign 2 assignProgram.2 assignProgram.1 1 1).bind
      (fun vs s2 => Functor.call 2 s2 (vs.getD 1 Functor.empty) [21])).observe =
        .done (.ok 42) ([], []) :=
  ⟨assign_correct assignProgram.2 assignProgram.1 0 1 ⟨some 0⟩ ⟨some 1⟩
    (.FunctorHandler counter) (.FunctorHandler double) [0] [1] 2 rfl rfl
    (Owns.FunctorHandler rfl) (Owns.FunctorHandler rfl) (by decide) (by decide) (by decide),
    rfl⟩

/-- C16. NoDuplicates removes all duplicate types: for every typelist, given
by the list `l` of its element types, `NoDuplicates` has a result, again a
typelist; no type occurs twice in it, a type occurs in it iff it occurs in
`l`, and the types stand in the order of their first occurrences in `l`. -/
theorem NoDuplicates_spec (l : List Ty) :
    ∃ r, TL.NoDuplicates (Ty.ofList l) = some (Ty.ofList r) ∧ r.Nodup ∧
      (∀ T, T ∈ r ↔ T ∈ l) ∧ (∀ T, r.count T = if T ∈ l then 1 else 0) ∧
      r.Pairwise (fun x y => l.indexOf x < l.indexOf y) := by
  have key : ∃ r, TL.NoDuplicates (Ty.ofList l) = some (Ty.ofList r) ∧ r.Nodup ∧
      (∀ T, T ∈ r ↔ T ∈ l) ∧ r.Pairwise (fun x y => l.indexOf x < l.indexOf y) := by
    induction l with
    | nil => exact ⟨[], rfl, List.nodup_nil, by simp, List.Pairwise.nil⟩
    | cons H tl ih =>
      obtain ⟨r0, hr0, hnd, hmem, hpw⟩ := ih
      refine ⟨H :: r0.erase H, ?_, ?_, ?_, ?_⟩
      · simp [Ty.ofList, TL.NoDuplicates, hr0, erase_ofList]
      · refine List.nodup_cons.2 ⟨?_, hnd.erase H⟩
        intro hH
        exact ((hnd.mem_erase_iff).1 hH).1 rfl
      · intro T
        by_cases hT : T = H
        · simp [hT]
        · simp [hT, hnd.mem_erase_iff, hmem]
      · refine List.Pairwise.cons ?_ ?_
        · intro y hy
          have hyH : y ≠ H := ((hnd.mem_erase_iff).1 hy).1
          rw [List.indexOf_cons_self, List.indexOf_cons_ne _ (Ne.symm hyH)]
          exact Nat.succ_pos _
        · refine List.Pairwise.imp_of_mem ?_ (hpw.sublist (List.erase_sublist H r0))
          intro x y hx hy hxy
          have hxH : x ≠ H := ((hnd.mem_erase_iff).1 hx).1
          have hyH : y ≠ H := ((hnd.mem_erase_iff).1 hy).1
          rw [List.indexOf_cons_ne _ (Ne.symm hxH), List.indexOf_cons_ne _ (Ne.symm hyH)]
          exact Nat.succ_lt_succ hxy
  obtain ⟨r, hr, hnd, hmem, hpw⟩ := key
  refine ⟨r, hr, hnd, hmem, ?_, hpw⟩
  intro T
  by_cases hT : T ∈ l
  · simp [hT, List.count_eq_one_of_mem hnd ((hmem T).2 hT)]
  · simp [hT, List.count_eq_zero_of_not_mem (fun h => hT ((hmem T).1 h))]

/-- C17. Erase removes the first occurrence, if any, of a type: for the
typelist of the element types `l`, if `T` does not occur in `l` the result is
the list itself; if `l` is `pre`, then `T`, then `post`, with no `T` in `pre`,
the result is `pre` followed by `post`, one element shorter; and when `T`
occurs in `l` there is such a split. -/
theorem Erase_spec (l : List Ty) (T : Ty) :
    (T ∉ l → TL.Erase (Ty.ofList l) T = some (Ty.ofList l)) ∧
    (∀ pre post, l = pre ++ T :: post → T ∉ pre →
      TL.Erase (Ty.ofList l) T = some (Ty.ofList (pre ++ post)) ∧
      TL.Length (Ty.ofList (pre ++ post)) = (TL.Length (Ty.ofList l)).map (· - 1) ∧
      TL.Length (Ty.ofList l) = some ((pre ++ post).length + 1)) ∧
    (T ∈ l → ∃ pre post, l = pre ++ T :: post ∧ T ∉ pre) := by
  refine ⟨?_, ?_, ?_⟩
  · intro hT
    rw [erase_ofList, List.erase_of_not_mem hT]
  · intro pre post hl hpre
    subst hl
    refine ⟨?_, by simp [length_ofList], by simp [length_ofList]; omega⟩
    induction pre with
    | nil => simp [Ty.ofList, TL.Erase]
    | cons H pre ih =>
      have hH : H ≠ T := fun h => hpre (by simp [h])
      have hp : T ∉ pre := fun h => hpre (by simp [h])
      simp [Ty.ofList, TL.Erase, hH, ih hp]
  · intro hT
    induction l with
    | nil => simp at hT
    | cons H tl ih =>
      by_cases h : H = T
      · exact ⟨[], tl, by simp [h], by simp⟩
      · have hT1 : T ∈ tl := by
          simp only [List.mem_cons] at hT
          rcases hT with hT | hT
          · exact absurd hT.symm h
          · exact hT
        obtain ⟨pre, post, hl, hpre⟩ := ih hT1
        refine ⟨H :: pre, post, by simp [hl], ?_⟩
        intro hm
        simp only [List.mem_cons] at hm
        rcases hm with hm | hm
        · exact h hm.symm
        · exact hpre hm

/-- Witness for C17: erasing type 1 from the list 0, 1, 0, 2, 1 removes the
occurrence at position 1 only; erasing type 5 changes nothing. -/
theorem Erase_spec_witness :
    TL.Erase (Ty.ofList [.other 0, .other 1, .other 0, .other 2, .other 1]) (.other 1) =
        some (Ty.ofList ([.other 0] ++ [.other 0, .other 2, .other 1])) ∧
      TL.Erase (Ty.ofList [.other 0, .other 1, .other 0, .other 2, .other 1]) (.other 5) =
        some (Ty.ofList [.other 0, .other 1, .other 0, .other 2, .other 1]) :=
  ⟨((Erase_spec [.other 0, .other 1, .other 0, .other 2, .other 1] (.other 1)).2.1
      [.other 0] [.other 0, .other 2, .other 1] rfl (by decide)).1,
    (Erase_spec [.other 0, .other 1, .other 0, .other 2, .other 1] (.other 5)).1 (by decide)⟩

/-- C18. IndexOf finds the index of a type: for the typelist of the element
types `l`, `IndexOf` has a value; the value is -1 iff `T` does not occur in
`l`; and when `T` occurs, the value is an index `i` below the length with `T`
at position `i` and at no position before `i`. -/
theorem IndexOf_spec (l : List Ty) (T : Ty) :
    (∃ v, TL.IndexOf (Ty.ofList l) T = some v) ∧
    (TL.IndexOf (Ty.ofList l) T = some (-1) ↔ T ∉ l) ∧
    (T ∈ l → ∃ i : Nat, TL.IndexOf (Ty.ofList l) T = some (i : Int) ∧
      TL.Length (Ty.ofList l) = some l.length ∧ i < l.length ∧
      TL.TypeAt (Ty.ofList l) i = some T ∧
      ∀ j, j < i → TL.TypeAt (Ty.ofList l) j ≠ some T) := by
  have key : (T ∉ l → TL.IndexOf (Ty.ofList l) T = some (-1)) ∧
      (T ∈ l → ∃ i : Nat, TL.IndexOf (Ty.ofList l) T = some (i : Int) ∧ i < l.length ∧
        TL.TypeAt (Ty.ofList l) i = some T ∧
        ∀ j, j < i → TL.TypeAt (Ty.ofList l) j ≠ some T) := by
    induction l with
    | nil => exact ⟨fun _ => rfl, fun h => by simp at h⟩
    | cons H tl ih =>
      obtain ⟨ih1, ih2⟩ := ih
      by_cases h : H = T
      · subst h
        refine ⟨fun hn => by simp at hn, fun _ => ⟨0, ?_, by simp, ?_, ?_⟩⟩
        · simp [Ty.ofList, TL.IndexOf]
        · simp [Ty.ofList, TL.TypeAt]
        · intro j hj
          omega
      · refine ⟨?_, ?_⟩
        · intro hn
          have hT : T ∉ tl := fun hm => hn (by simp [hm])
          simp [Ty.ofList, TL.IndexOf, h, ih1 hT]
        · intro hm
          have hT : T ∈ tl := by
            simp only [List.mem_cons] at hm
            rcases hm with hm | hm
            · exact absurd hm.symm h
            · exact hm
          obtain ⟨i, hi, hlt, hat, hbefore⟩ := ih2 hT
          refine ⟨i + 1, ?_, by simp; omega, ?_, ?_⟩
          · have hne : ((i : Int) = -1) = False := by
              apply propext
              constructor
              · intro hh; omega
              · intro hh; exact hh.elim
            simp [Ty.ofList, TL.IndexOf, h, hi, hne]
            omega
          · simpa [Ty.ofList, TL.TypeAt] using hat
          · intro j hj
            cases j with
            | zero =>
              simp only [Ty.ofList, TL.TypeAt]
              intro hc
              exact h (Option.some.inj hc)
            | succ k =>
              simp only [Ty.ofList, TL.TypeAt]
              exact hbefore k (by omega)
  obtain ⟨k1, k2⟩ := key
  refine ⟨?_, ⟨?_, k1⟩, ?_⟩
  · by_cases hT : T ∈ l
    · obtain ⟨i, hi, _⟩ := k2 hT
      exact ⟨_, hi⟩
    · exact ⟨_, k1 hT⟩
  · intro hv hT
    obtain ⟨i, hi, _⟩ := k2 hT
    rw [hi] at hv
    have := Option.some.inj hv
    omega
  · intro hT
    obtain ⟨i, hi, hlt, hat, hb⟩ := k2 hT
    exact ⟨i, hi, length_ofList l, hlt, hat, hb⟩

/-- Witness for C18: in the list 0, 1, 0, 2, 1 the type 2 has index 3. -/
theorem IndexOf_spec_witness :
    ∃ i : Nat, TL.IndexOf (Ty.ofList [.other 0, .other 1, .other 0, .other 2, .other 1])
        (.other 2) = some (i : Int) ∧
      TL.Length (Ty.ofList [.other 0, .other 1, .other 0, .other 2, .other 1]) =
        some [Ty.other 0, .other 1, .other 0, .other 2, .other 1].length ∧
      i < [Ty.other 0, .other 1, .other 0, .other 2, .other 1].length ∧
      TL.TypeAt (Ty.ofList [.other 0, .other 1, .other 0, .other 2, .other 1]) i =
        some (.other 2) ∧
      ∀ j, j < i →
        TL.TypeAt (Ty.ofList [.other 0, .other 1, .other 0, .other 2, .other 1]) j ≠
          some (.other 2) :=
  (IndexOf_spec [.other 0, .other 1, .other 0, .other 2, .other 1] (.other 2)).2.2 (by decide)

/-- C19. DerivedToFront puts the most derived types first: let the value of
`SuperSubclass<T, U>` (`U` derives from `T`) be transitive and antisymmetric.
For the typelist of the element types `l` and an instantiation depth of at
least its length, `DerivedToFront` has a result, again a typelist, and for
all positions `i < j` of it the type at `j` is not strictly derived from the
type at `i`. -/
theorem DerivedToFront_order (sup : Ty → Ty → Bool) (l : List Ty) (n : Nat)
    (hn : l.length ≤ n)
    (htrans : ∀ x y z, sup x y = true → sup y z = true → sup x z = true)
    (hantisymm : ∀ x y, sup x y = true → sup y x = true → x = y) :
    ∃ r, TL.DerivedToFront sup n (Ty.ofList l) = some (Ty.ofList r) ∧
      r.Pairwise (fun x y => ¬ (sup x y = true ∧ x ≠ y)) ∧
      ∀ i j x y, i < j → TL.TypeAt (Ty.ofList r) i = some x →
        TL.TypeAt (Ty.ofList r) j = some y → ¬ (sup x y = true ∧ x ≠ y) := by
  obtain ⟨r, hr, _, hpw⟩ := derivedToFront_ofList sup n l hn
  have hp := hpw htrans hantisymm
  refine ⟨r, hr, hp, ?_⟩
  intro i j x y hij hx hy
  rw [typeAt_ofList] at hx hy
  obtain ⟨hi, hxi⟩ := List.getElem?_eq_some.1 hx
  obtain ⟨hj, hyj⟩ := List.getElem?_eq_some.1 hy
  have := (List.pairwise_iff_getElem.1 hp) i j hi hj hij
  rw [hxi, hyj] at this
  exact this

/-- C20. DerivedToFront only rearranges: whatever the value of `SuperSubclass`
is, for the typelist of the element types `l` and an instantiation depth of at
least its length, `DerivedToFront` has a result, again a typelist, whose
elements are a permutation of `l`: the same length and every type as often
as in `l`. -/
theorem DerivedToFront_perm (sup : Ty → Ty → Bool) (l : List Ty) (n : Nat)
    (hn : l.length ≤ n) :
    ∃ r, TL.DerivedToFront sup n (Ty.ofList l) = some (Ty.ofList r) ∧ r.Perm l ∧
      r.length = l.length ∧ TL.Length (Ty.ofList r) = TL.Length (Ty.ofList l) ∧
      ∀ T, r.count T = l.count T := by
  obtain ⟨r, hr, hperm, _⟩ := derivedToFront_ofList sup n l hn
  exact ⟨r, hr, hperm, hperm.length_eq, by simp [length_ofList, hperm.length_eq],
    fun T => hperm.count_eq T⟩

/-- Witness for C19: with the classes 2, 4, 1, 8 where `b` derives from `a`
when `a` divides `b`, the result is 8, 4, 2, 1. -/
theorem DerivedToFront_order_witness :
    (∃ r, TL.DerivedToFront dividesExample 4
        (Ty.ofList [.other 2, .other 4, .other 1, .other 8]) = some (Ty.ofList r) ∧
      r.Pairwise (fun x y => ¬ (dividesExample x y = true ∧ x ≠ y)) ∧
      ∀ i j x y, i < j → TL.TypeAt (Ty.ofList r) i = some x →
        TL.TypeAt (Ty.ofList r) j = some y → ¬ (dividesExample x y = true ∧ x ≠ y)) ∧
    TL.DerivedToFront dividesExample 4 (Ty.ofList [.other 2, .other 4, .other 1, .other 8]) =
      some (Ty.ofList [.other 8, .other 4, .other 2, .other 1]) :=
  ⟨DerivedToFront_order dividesExample [.other 2, .other 4, .other 1, .other 8] 4 (by decide)
    dividesExample_trans dividesExample_antisymm, by decide⟩

/-- Witness for C20: with a relation that holds between all types, which is
no partial order, the list 0, 1, 0 is rearranged to 1, 0, 0. -/
theorem DerivedToFront_perm_witness :
    (∃ r, TL.DerivedToFront (fun _ _ => true) 3 (Ty.ofList [.other 0, .other 1, .other 0]) =
        some (Ty.ofList r) ∧ r.Perm [.other 0, .other 1, .other 0] ∧
      r.length = [Ty.other 0, .other 1, .other 0].length ∧
      TL.Length (Ty.ofList r) = TL.Length (Ty.ofList [.other 0, .other 1, .other 0]) ∧
      ∀ T, r.count T = [Ty.other 0, .other 1, .other 0].count T) ∧
    TL.DerivedToFront (fun _ _ => true) 3 (Ty.ofList [.other 0, .other 1, .other 0]) =
      some (Ty.ofList [.other 1, .other 0, .other 0]) :=
  ⟨DerivedToFront_perm (fun _ _ => true) [.other 0, .other 1, .other 0] 3 (by decide),
    by decide⟩

/-- C11. ArityUnderflow: for the parameter list `NullType` the first parameter
type `TypeAt<NullType, 0>` has no result, so `BinderFirstTraits` has no
`ParmList` and no `BoundFunctorType`, and `BindFirst` has no instantiation: no
functor type and no functor value comes out, whatever the state, the functor
and the bound argument, and whatever member typedefs the functor class
declares. With the typedefs that `Functor` declares in the source
`BindFirst` has no instantiation for any functor type, because `BinderFirst`
names `Parm3`; with `Parm3` supplied, binding on a unary and on a binary functor
type has an instantiation, with a nullary and a unary result type. -/
theorem BindFirst_nullary (R : Ty) :
    TL.TypeAt .NullType 0 = none ∧
    Private.BinderFirstTraits.ParmList .NullType = none ∧
    Private.BinderFirstTraits.BoundFunctorType ⟨R, .NullType⟩ = none ∧
    (∀ (declared : List MemberTypedef) (fuel : Nat) (s : Store S V W E) (f : Functor)
      (bound : V), BindFirst.instantiate declared ⟨R, .NullType⟩ fuel s f bound = none) ∧
    (∀ (Fctor : FunctorType) (fuel : Nat) (s : Store S V W E) (f : Functor) (bound : V),
      BindFirst.instantiate Functor.typedefs Fctor fuel s f bound = none) ∧
    (∀ (P1 P2 : Ty) (fuel : Nat) (s : Store S V W E) (f : Functor) (bound : V),
      BindFirst.instantiate (.Parm3 :: Functor.typedefs) ⟨R, TYPELIST_1 P1⟩ fuel s f bound =
        some (⟨R, .NullType⟩, BindFirst fuel s f bound) ∧
      BindFirst.instantiate (.Parm3 :: Functor.typedefs) ⟨R, TYPELIST_2 P1 P2⟩ fuel s f bound =
        some (⟨R, TYPELIST_1 P2⟩, BindFirst fuel s f bound)) := by
  refine ⟨rfl, rfl, rfl, ?_, ?_, ?_⟩
  · intro declared fuel s f bound
    simp only [BindFirst.instantiate, FunctorImpl.specialised, Bool.true_and]
    cases BinderFirst.requires.all (fun x => decide (x ∈ declared)) <;> rfl
  · intro Fctor fuel s f bound
    have hreq : BinderFirst.requires.all (fun x => decide (x ∈ Functor.typedefs)) = false := by
      decide
    simp [BindFirst.instantiate, hreq]
  · intro P1 P2 fuel s f bound
    have hreq : BinderFirst.requires.all
        (fun x => decide (x ∈ MemberTypedef.Parm3 :: Functor.typedefs)) = true := by
      decide
    constructor
    · simp only [BindFirst.instantiate, hreq, FunctorImpl.specialised, TYPELIST_1,
        Bool.and_self]
      simp [Private.BinderFirstTraits.BoundFunctorType, Private.BinderFirstTraits.ParmList,
        TL.TypeAt, TL.Erase, FunctorImpl.specialised]
    · simp only [BindFirst.instantiate, hreq, FunctorImpl.specialised, TYPELIST_1, TYPELIST_2,
        Bool.and_self]
      simp [Private.BinderFirstTraits.BoundFunctorType, Private.BinderFirstTraits.ParmList,
        TL.TypeAt, TL.Erase, FunctorImpl.specialised]

/-- C12. Clone type identity: `Clone` is the generic body `CloneWith` run with
the `DoClone` of the four library classes, and with it the assertion never
fails, in any state. For an object `a` that heads an owned object graph,
`Clone` completes with a new cell `c`, not one of the existing cells, that
holds an object of the same dynamic type and owns an equal graph in new cells,
while the existing cells stay as they are. For an arbitrary `DoClone` that
returns an object, the assertion fails exactly when the dynamic type of that
object differs from the type of the original. -/
theorem Clone_typeid (s : Store S V W E) (a : Nat) (t : Owned S V W E) (fp : List Nat)
    (fuel : Nat) (ho : Owns s.impls ⟨some a⟩ t fp) (hfuel : t.depth < fuel) :
    (∃ c s1 pObj cObj fpc, Clone fuel s (some a) = .done (some c) s1 ∧
      s.impls[a]? = some (some pObj) ∧ s1.impls[c]? = some (some cObj) ∧
      typeid cObj = typeid pObj ∧ s.impls.length ≤ c ∧
      (∀ x, x < s.impls.length → s1.impls[x]? = s.impls[x]?) ∧
      Owns s1.impls ⟨some c⟩ t fpc ∧ ∀ x ∈ fpc, s.impls.length ≤ x) ∧
    (∀ (n : Nat) (s0 : Store S V W E) (p : Option Nat), Clone n s0 p ≠ .aborted) ∧
    (∀ (n : Nat) (s0 : Store S V W E) (p : Option Nat),
      Clone (n + 1) s0 p = CloneWith (DoClone n) s0 p) ∧
    (∀ (d : Store S V W E → FunctorImpl S V W E → Res (Store S V W E) Nat)
      (s0 s2 : Store S V W E) (p c : Nat) (pObj cObj : FunctorImpl S V W E),
      s0.impls[p]? = some (some pObj) → d s0 pObj = .done c s2 →
      s2.impls[c]? = some (some cObj) →
      (CloneWith d s0 (some p) = .aborted ↔ typeid cObj ≠ typeid pObj)) := by
  refine ⟨?_, fun n s0 p => Clone_ne_aborted n s0 p, fun n s0 p => Clone_succ n s0 p, ?_⟩
  · obtain ⟨h, objs, w⟩ := s
    obtain ⟨c, ext, fpc, hc, hco, hge⟩ := clone_sim t h ⟨some a⟩ fp fuel objs w ho hfuel
    obtain ⟨c1, pObj, cObj, hceq, hmem, hp, hcl, hty⟩ := owns_typeid ho hco
    have hc1 : c = some c1 := by simpa using congrArg Functor.spImpl_ hceq
    subst hc1
    refine ⟨c1, ⟨h ++ ext, objs, w⟩, pObj, cObj, fpc, hc, hp, hcl, hty, hge c1 hmem, ?_, hco, hge⟩
    intro x hx
    exact List.getElem?_append_left hx
  · intro d s0 s2 p c pObj cObj hp hd hc
    simp only [CloneWith, hp, hd, Res.bind, hc]
    by_cases hty : typeid cObj = typeid pObj <;> simp [hty]

/-- Witness for C12: cloning the `FunctorHandler` of `addProgram` gives a
`FunctorHandler` in the new cell 1; with a `DoClone` that returns a `Chainer`
for it the assertion fails. -/
theorem Clone_typeid_witness :
    (∃ c s1 pObj cObj fpc, Clone 2 addProgram.2 (some 0) = .done (some c) s1 ∧
      addProgram.2.impls[0]? = some (some pObj) ∧ s1.impls[c]? = some (some cObj) ∧
      typeid cObj = typeid pObj ∧ addProgram.2.impls.length ≤ c ∧
      (∀ x, x < addProgram.2.impls.length → s1.impls[x]? = addProgram.2.impls[x]?) ∧
      Owns s1.impls ⟨some c⟩ (.FunctorHandler add) fpc ∧
      ∀ x ∈ fpc, addProgram.2.impls.length ≤ x) ∧
    CloneWith wrongDoClone addProgram.2 (some 0) = .aborted :=
  ⟨(Clone_typeid addProgram.2 0 (.FunctorHandler add) [0] 2 (Owns.FunctorHandler rfl)
    (by decide)).1, rfl⟩

/-- C13. Clone preserves behaviour of composed adapters: for an adapter `a`
that owns the object graph `t`, however deeply `BinderFirst` and `Chainer`
are nested in it, the copy constructor completes with a functor `b` that owns
an equal graph in new cells: for a `BinderFirst` a new object with the same
bound value whose inner functor owns a copy of the inner graph, for a `Chainer`
a new object whose two inner functors own separate copies of the two inner
graphs. Called with the same arguments right after the copy, `b` and `a` show
the caller the same result and the same outside state. -/
theorem copy_composed (s : Store S V W E) (a : Functor) (t : Owned S V W E) (fp : List Nat)
    (fuel : Nat) (ha : Owns s.impls a t fp) (hfuel : t.depth < fuel) :
    ∃ b s1 fpb, Functor.copy fuel s a = .done b s1 ∧
      s1.objs = s.objs ∧ s1.world = s.world ∧
      (∀ x, x < s.impls.length → s1.impls[x]? = s.impls[x]?) ∧
      Owns s1.impls b t fpb ∧ (∀ x ∈ fpb, s.impls.length ≤ x) ∧
      (∀ t0 bv, t = .BinderFirst t0 bv → ∃ c g fq, b = ⟨some c⟩ ∧
        s1.impls[c]? = some (some (.BinderFirst g bv)) ∧ Owns s1.impls g t0 fq ∧
        ∀ x ∈ fq, s.impls.length ≤ x) ∧
      (∀ t1 t2, t = .Chainer t1 t2 → ∃ c g1 g2 fq1 fq2, b = ⟨some c⟩ ∧
        s1.impls[c]? = some (some (.Chainer g1 g2)) ∧
        Owns s1.impls g1 t1 fq1 ∧ Owns s1.impls g2 t2 fq2 ∧ (∀ x ∈ fq1, x ∉ fq2) ∧
        ∀ x, x ∈ fq1 ∨ x ∈ fq2 → s.impls.length ≤ x) ∧
      ∀ args : List V,
        (Functor.call fuel s1 b args).observe = (Functor.call fuel s1 a args).observe ∧
        Functor.call fuel s1 b args ≠ .outOfFuel := by
  obtain ⟨h, objs, w⟩ := s
  obtain ⟨c, ext, fpb, hc, hb, hge⟩ := clone_sim t h a fp fuel objs w ha hfuel
  refine ⟨⟨c⟩, ⟨h ++ ext, objs, w⟩, fpb, by simp [Functor.copy, hc], rfl, rfl, ?_, hb, hge,
    ?_, ?_, ?_⟩
  · intro x hx
    exact List.getElem?_append_left hx
  · intro t0 bv ht
    subst ht
    cases hb with
    | BinderFirst hl hg hn =>
      exact ⟨_, _, _, rfl, hl, hg, fun x hx => hge x (by simp [hx])⟩
  · intro t1 t2 ht
    subst ht
    cases hb with
    | Chainer hl hg1 hg2 hn1 hn2 hdis =>
      refine ⟨_, _, _, _, _, rfl, hl, hg1, hg2, hdis, ?_⟩
      intro x hx
      rcases hx with hx | hx
      · exact hge x (by simp [hx])
      · exact hge x (by simp [hx])
  · intro args
    refine ⟨?_, (call_ne_outOfFuel hb hfuel objs w args).1⟩
    rw [call_observe hb hfuel objs w args,
      call_observe (owns_append ha ext) hfuel objs w args]

/-- Witness for C13: the functor `Chain(BindFirst(f, 5), BindFirst(f, 1))` over
`f = add` and its copy both return 4 when called with 3. -/
theorem copy_composed_witness :
    nestedProgram = .done ⟨some 9⟩ nestedStore ∧
    (∃ b s1 fpb, Functor.copy 4 nestedStore ⟨some 9⟩ = .done b s1 ∧
      s1.objs = nestedStore.objs ∧ s1.world = nestedStore.world ∧
      (∀ x, x < nestedStore.impls.length → s1.impls[x]? = nestedStore.impls[x]?) ∧
      Owns s1.impls b nestedGraph fpb ∧ (∀ x ∈ fpb, nestedStore.impls.length ≤ x) ∧
      (∀ t0 bv, nestedGraph = .BinderFirst t0 bv → ∃ c g fq, b = ⟨some c⟩ ∧
        s1.impls[c]? = some (some (.BinderFirst g bv)) ∧ Owns s1.impls g t0 fq ∧
        ∀ x ∈ fq, nestedStore.impls.length ≤ x) ∧
      (∀ t1 t2, nestedGraph = .Chainer t1 t2 → ∃ c g1 g2 fq1 fq2, b = ⟨some c⟩ ∧
        s1.impls[c]? = some (some (.Chainer g1 g2)) ∧
        Owns s1.impls g1 t1 fq1 ∧ Owns s1.impls g2 t2 fq2 ∧ (∀ x ∈ fq1, x ∉ fq2) ∧
        ∀ x, x ∈ fq1 ∨ x ∈ fq2 → nestedStore.impls.length ≤ x) ∧
      ∀ args : List Int,
        (Functor.call 4 s1 b args).observe =
          (Functor.call 4 s1 ⟨some 9⟩ args).observe ∧
        Functor.call 4 s1 b args ≠ .outOfFuel) ∧
    ((Functor.copy 4 nestedStore ⟨some 9⟩).bind
      (fun b s1 => Functor.call 4 s1 b [3])).observe = .done (.ok 4) ([], []) ∧
    (Functor.call 4 nestedStore ⟨some 9⟩ [3]).observe = .done (.ok 4) ([], []) :=
  ⟨rfl,
    copy_composed nestedStore ⟨some 9⟩ nestedGraph (9 :: ([6, 5] ++ [8, 7])) 4
      (Owns.Chainer rfl
        (Owns.BinderFirst rfl (Owns.FunctorHandler rfl) (by decide))
        (Owns.BinderFirst rfl (Owns.FunctorHandler rfl) (by decide))
        (by decide) (by decide) (by decide))
      (by decide),
    rfl, rfl⟩

/-- C14. Failure transparency: the call of the functor built from a callable
`c` completes with the outcome `r`, a result or a thrown exception, iff `c`
run on the same arguments has that outcome; and for a functor `g` that owns
its object graph, the call of `BindFirst(g, b)` with `rest` completes with
the outcome `r` iff the call of `g` with `b` prepended does, and is undefined
iff that call is. With `r` an exception: the same failure in the same cases,
nothing caught and nothing translated. -/
theorem failure_transparent (s : Store S V W E) (c : Callable S V W E) (args : List V)
    (g : Functor) (t : Owned S V W E) (fp : List Nat) (fuel : Nat) (b : V) (rest : List V)
    (hg : Owns s.impls g t fp) (hfuel : t.depth + 1 < fuel) :
    (∀ r : Except E V,
      (∃ s2, Functor.call fuel (Functor.ofFun s c).2 (Functor.ofFun s c).1 args = .done r s2) ↔
        (c.op c.state args s.world).1 = r) ∧
    ∃ bf s1, BindFirst fuel s g b = .done bf s1 ∧
      (∀ r : Except E V,
        (∃ s2, Functor.call fuel s1 bf rest = .done r s2) ↔
          (∃ s2, Functor.call fuel s1 g (b :: rest) = .done r s2)) ∧
      (Functor.call fuel s1 bf rest = .undefined ↔
        Functor.call fuel s1 g (b :: rest) = .undefined) := by
  obtain ⟨n, rfl⟩ : ∃ n, fuel = n + 1 := ⟨fuel - 1, by omega⟩
  refine ⟨?_, ?_⟩
  · intro r
    simp [Functor.call, Functor.ofFun, Store.alloc]
  · obtain ⟨h, objs, w⟩ := s
    obtain ⟨a, ext, fp1, hb, hbo, _⟩ := bindFirst_sim hg (by omega : t.depth < n + 1) objs w b
    have hobs : (Functor.call (n + 1) ⟨h ++ ext, objs, w⟩ ⟨some a⟩ rest).observe =
        (Functor.call (n + 1) ⟨h ++ ext, objs, w⟩ g (b :: rest)).observe := by
      rw [call_observe hbo (by simp [Owned.depth]; omega) objs w rest,
        call_observe (owns_append hg ext) (by omega) objs w (b :: rest),
        observe_binderFirst]
    exact ⟨⟨some a⟩, ⟨h ++ ext, objs, w⟩, hb, fun r => observe_done_iff hobs r,
      observe_undefined_iff hobs⟩

/-- Witness for C14: `checkedAdd` throws 3 on a negative first argument; the
functor built from it throws 3 on (-1, 2), and binding -1 gives a functor that
throws 3 on 2. -/
theorem failure_transparent_witness :
    ((∀ r : Except Nat Int,
      (∃ s2, Functor.call 3 (Functor.ofFun checkedProgram.2 checkedAdd).2
          (Functor.ofFun checkedProgram.2 checkedAdd).1 [-1, 2] = .done r s2) ↔
        (checkedAdd.op checkedAdd.state [-1, 2] checkedProgram.2.world).1 = r) ∧
    ∃ bf s1, BindFirst 3 checkedProgram.2 checkedProgram.1 (-1 : Int) = .done bf s1 ∧
      (∀ r : Except Nat Int,
        (∃ s2, Functor.call 3 s1 bf [2] = .done r s2) ↔
          (∃ s2, Functor.call 3 s1 checkedProgram.1 (-1 :: [2]) = .done r s2)) ∧
      (Functor.call 3 s1 bf [2] = .undefined ↔
        Functor.call 3 s1 checkedProgram.1 (-1 :: [2]) = .undefined)) ∧
    (Functor.call 3 checkedProgram.2 checkedProgram.1 [-1, 2]).observe =
      .done (.error 3) ([], []) ∧
    ((BindFirst 3 checkedProgram.2 checkedProgram.1 (-1 : Int)).bind
      (fun bf s1 => Functor.call 3 s1 bf [2])).observe = .done (.error 3) ([], []) :=
  ⟨failure_transparent checkedProgram.2 checkedAdd [-1, 2] checkedProgram.1
    (.FunctorHandler checkedAdd) [0] 3 (-1) [2] (Owns.FunctorHandler rfl) (by decide),
    rfl, rfl⟩

/-- C15. Member-function adapter copies share their target: let the functor
`a` own a `MemFunHandler` with the handle `p` of a live object and the member
function `m`. The copy constructor completes with a functor `b` in a new cell
that holds a `MemFunHandler` with the same `p` and the same `m`. A call
through `b` runs `m` on the object at `p` and leaves it changed there, and the
next call through `a` is the direct call of `m` on that changed object. -/
theorem memFun_copy_shares_target (s : Store S V W E) (a p : Nat) (m : Method S V W E)
    (o : S) (fuel : Nat) (args1 args2 : List V)
    (ha : s.impls[a]? = some (some (.MemFunHandler p m)))
    (hp : s.objs[p]? = some (some o)) :
    ∃ s1 s2, Functor.copy (fuel + 1) s ⟨some a⟩ = .done ⟨some s.impls.length⟩ s1 ∧
      s1.impls[s.impls.length]? = some (some (.MemFunHandler p m)) ∧
      s1.impls[a]? = some (some (.MemFunHandler p m)) ∧
      s1.objs = s.objs ∧ s1.world = s.world ∧
      Functor.call (fuel + 1) s1 ⟨some s.impls.length⟩ args1 =
        .done (m o args1 s.world).1 s2 ∧
      s2.objs[p]? = some (some (m o args1 s.world).2.1) ∧
      s2.world = (m o args1 s.world).2.2 ∧
      (Functor.call (fuel + 1) s2 ⟨some a⟩ args2).observe =
        (callMember s2 p m args2).observe ∧
      ∃ s3, Functor.call (fuel + 1) s2 ⟨some a⟩ args2 =
        .done (m (m o args1 s.world).2.1 args2 (m o args1 s.world).2.2).1 s3 := by
  have hpl : p < s.objs.length := (List.getElem?_eq_some.1 hp).1
  have hal : a < s.impls.length := (List.getElem?_eq_some.1 ha).1
  have ha1 : (s.impls ++ [some (FunctorImpl.MemFunHandler p m)])[a]? =
      some (some (.MemFunHandler p m)) := by
    rw [List.getElem?_append_left hal]; exact ha
  refine ⟨⟨s.impls ++ [some (.MemFunHandler p m)], s.objs, s.world⟩,
    ⟨s.impls ++ [some (.MemFunHandler p m)], s.objs.set p (some (m o args1 s.world).2.1),
      (m o args1 s.world).2.2⟩, ?_, ?_, ha1, rfl, rfl, ?_, ?_, rfl, ?_, ?_⟩
  · simp [Functor.copy, Clone, ha, Store.alloc, typeid]
  · simp
  · simp [Functor.call, hp]
  · simp [hpl]
  · simp [Functor.call, callMember, ha1, hpl, Res.observe]
  · simp [Functor.call, ha1, hpl]

/-- Witness for C15: with a counter at 10, `bump(5)` through the copy returns
15, and `bump(1)` through the original then returns 16. -/
theorem memFun_copy_shares_target_witness :
    (∃ s1 s2, Functor.copy 1 (Functor.ofMemFn objStore 0 bump).2 ⟨some 0⟩ =
        .done ⟨some (Functor.ofMemFn objStore 0 bump).2.impls.length⟩ s1 ∧
      s1.impls[(Functor.ofMemFn objStore 0 bump).2.impls.length]? =
        some (some (.MemFunHandler 0 bump)) ∧
      s1.impls[0]? = some (some (.MemFunHandler 0 bump)) ∧
      s1.objs = (Functor.ofMemFn objStore 0 bump).2.objs ∧
      s1.world = (Functor.ofMemFn objStore 0 bump).2.world ∧
      Functor.call 1 s1 ⟨some (Functor.ofMemFn objStore 0 bump).2.impls.length⟩ [5] =
        .done (bump 10 [5] (Functor.ofMemFn objStore 0 bump).2.world).1 s2 ∧
      s2.objs[0]? = some (some (bump 10 [5] (Functor.ofMemFn objStore 0 bump).2.world).2.1) ∧
      s2.world = (bump 10 [5] (Functor.ofMemFn objStore 0 bump).2.world).2.2 ∧
      (Functor.call 1 s2 ⟨some 0⟩ [1]).observe = (callMember s2 0 bump [1]).observe ∧
      ∃ s3, Functor.call 1 s2 ⟨some 0⟩ [1] =
        .done (bump (bump 10 [5] (Functor.ofMemFn objStore 0 bump).2.world).2.1 [1]
          (bump 10 [5] (Functor.ofMemFn objStore 0 bump).2.world).2.2).1 s3) ∧
    (bump 10 [5] []).1 = .ok 15 ∧ (bump (bump 10 [5] []).2.1 [1] (bump 10 [5] []).2.2).1 = .ok 16 :=
  ⟨memFun_copy_shares_target (Functor.ofMemFn objStore 0 bump).2 0 0 bump 10 0 [5] [1] rfl rfl,
    rfl, rfl⟩

/-- C21. Reverse reverses a typelist: for every typelist whose element types
are not lists, given by the numbers `ns` of its elements, `Reverse` has a
result, the typelist of the elements in opposite order; it has the length of
the original, position `i` of it holds the type at position
`Length - 1 - i` of the original, and `Reverse` of the result is the original
list. -/
theorem Reverse_spec (ns : List Nat) :
    ∃ r, TL.Reverse (Ty.ofList (ns.map Ty.other)) = some r ∧
      r = Ty.ofList (ns.reverse.map Ty.other) ∧
      TL.Length (Ty.ofList (ns.map Ty.other)) = some ns.length ∧
      TL.Length r = some ns.length ∧
      (∀ i, i < ns.length →
        TL.TypeAt r i = TL.TypeAt (Ty.ofList (ns.map Ty.other)) (ns.length - 1 - i) ∧
        ∃ n, TL.TypeAt r i = some (.other n)) ∧
      TL.Reverse r = some (Ty.ofList (ns.map Ty.other)) := by
  refine ⟨_, reverse_ofList ns, rfl, by simp [length_ofList], by simp [length_ofList], ?_, ?_⟩
  · intro i hi
    have hrev : (ns.reverse)[i]? = ns[ns.length - 1 - i]? := List.getElem?_reverse hi
    refine ⟨by rw [typeAt_ofList, typeAt_ofList, List.getElem?_map, List.getElem?_map, hrev],
      ?_⟩
    have hlt : i < ns.reverse.length := by simpa using hi
    refine ⟨ns.reverse[i], ?_⟩
    rw [typeAt_ofList, List.getElem?_map, List.getElem?_eq_getElem hlt]
    rfl
  · have h := reverse_ofList ns.reverse
    simpa using h

/-- Witness for C21: the reverse of the list 0, 1, 2, 3 is 3, 2, 1, 0, and
position 1 of it holds the type 2. -/
theorem Reverse_spec_witness :
    TL.Reverse (Ty.ofList ([0, 1, 2, 3].map Ty.other)) =
        some (Ty.ofList ([3, 2, 1, 0].map Ty.other)) ∧
      TL.TypeAt (Ty.ofList ([0, 1, 2, 3].reverse.map Ty.other)) 1 =
        TL.TypeAt (Ty.ofList ([0, 1, 2, 3].map Ty.other)) ([0, 1, 2, 3].length - 1 - 1) ∧
      TL.TypeAt (Ty.ofList ([0, 1, 2, 3].reverse.map Ty.other)) 1 = some (.other 2) :=
  match Reverse_spec [0, 1, 2, 3] with
  | ⟨_, hr, hrev, _, _, hat, _⟩ =>
    ⟨by rw [hr, hrev]; rfl, by rw [← hrev]; exact (hat 1 (by decide)).1, by decide⟩

/-- C22. Append appends a type or a typelist to another: for the typelist of
the element types `l`, appending a single type that is not a list gives `l`
followed by that type, one longer, with that type at the last position;
appending the typelist of the element types `l2` gives `l` followed by `l2`,
with the sum of the lengths; appending `NullType` gives the list itself. -/
theorem Append_spec (l l2 : List Ty) (n : Nat) :
    TL.Append (Ty.ofList l) (.other n) = some (Ty.ofList (l ++ [.other n])) ∧
    TL.Length (Ty.ofList (l ++ [.other n])) = (TL.Length (Ty.ofList l)).map (· + 1) ∧
    TL.TypeAt (Ty.ofList (l ++ [.other n])) l.length = some (.other n) ∧
    (∀ i, i < l.length →
      TL.TypeAt (Ty.ofList (l ++ [.other n])) i = TL.TypeAt (Ty.ofList l) i) ∧
    TL.Append (Ty.ofList l) (Ty.ofList l2) = some (Ty.ofList (l ++ l2)) ∧
    TL.Length (Ty.ofList (l ++ l2)) = some (l.length + l2.length) ∧
    TL.Length (Ty.ofList l) = some l.length ∧ TL.Length (Ty.ofList l2) = some l2.length ∧
    TL.Append (Ty.ofList l) .NullType = some (Ty.ofList l) := by
  refine ⟨append_ofList_other l n, by simp [length_ofList], by simp [typeAt_ofList], ?_,
    append_ofList_ofList l l2, by simp [length_ofList], length_ofList l, length_ofList l2, ?_⟩
  · intro i hi
    simp [typeAt_ofList, List.getElem?_append_left hi]
  · have h := append_ofList_ofList l []
    simpa [Ty.ofList] using h

/-- Witness for C22: appending type 7 to the list 0, 1 gives 0, 1, 7, whose
position 0 still holds type 0. -/
theorem Append_spec_witness :
    TL.Append (Ty.ofList [.other 0, .other 1]) (.other 7) =
        some (Ty.ofList [.other 0, .other 1, .other 7]) ∧
      TL.TypeAt (Ty.ofList ([.other 0, .other 1] ++ [.other 7])) 0 =
        TL.TypeAt (Ty.ofList [.other 0, .other 1]) 0 :=
  ⟨(Append_spec [.other 0, .other 1] [] 7).1,
    (Append_spec [.other 0, .other 1] [] 7).2.2.2.1 0 (by decide)⟩

/-- C23. EraseAll removes every occurrence of a type: for the typelist of the
element types `l`, `EraseAll` has a result, the typelist of the elements of
`l` other than `T`, in their order; `T` does not occur in it, `EraseAll` on
the result returns the result, and `IndexOf` of `T` in the result is -1. -/
theorem EraseAll_spec (l : List Ty) (T : Ty) :
    ∃ r, TL.EraseAll (Ty.ofList l) T = some (Ty.ofList r) ∧
      r = l.filter (fun x => decide (x ≠ T)) ∧ T ∉ r ∧
      (∀ U, U ≠ T → r.count U = l.count U) ∧ r.Sublist l ∧
      TL.EraseAll (Ty.ofList r) T = some (Ty.ofList r) ∧
      TL.IndexOf (Ty.ofList r) T = some (-1) := by
  have hnot : T ∉ l.filter (fun x => decide (x ≠ T)) := by simp
  refine ⟨_, eraseAll_ofList l T, rfl, hnot, ?_, List.filter_sublist l, ?_,
    indexOf_ofList_not_mem _ T hnot⟩
  · intro U hU
    rw [List.count_filter]
    simpa using hU
  · rw [eraseAll_ofList]
    simp

/-- C24. Composed adapters are never empty: for all adapters `f`, `f1`, `f2`
that own their object graphs, the empty graph included, and every bound value
`b`, `BindFirst(f, b)` and `Chain(f1, f2)` complete with a functor that tests
true. Built on default-constructed functors they test true as well, while the
functors inside the new `BinderFirst` and `Chainer` objects are null and a
call of the composed functor is undefined: a true truth-test on a composed
adapter says nothing about its inner adapters. -/
theorem composed_never_empty (s : Store S V W E) (f f1 f2 : Functor)
    (t t1 t2 : Owned S V W E) (fp fp1 fp2 : List Nat) (fuel : Nat) (b : V)
    (hf : Owns s.impls f t fp) (h1 : Owns s.impls f1 t1 fp1) (h2 : Owns s.impls f2 t2 fp2)
    (hfuel : t.depth < fuel) (hfuel1 : t1.depth < fuel) (hfuel2 : t2.depth < fuel) :
    (∃ g s1, BindFirst fuel s f b = .done g s1 ∧ g.toBool = true) ∧
    (∃ g s1, Chain fuel s f1 f2 = .done g s1 ∧ g.toBool = true) ∧
    (∃ g s1, BindFirst (fuel + 1) s Functor.empty b = .done g s1 ∧ g.toBool = true ∧
      g.spImpl_ = some s.impls.length ∧
      s1.impls[s.impls.length]? = some (some (.BinderFirst Functor.empty b)) ∧
      Functor.empty.toBool = false ∧
      ∀ args : List V, Functor.call (fuel + 2) s1 g args = .undefined) ∧
    (∃ g s1, Chain (fuel + 1) s Functor.empty Functor.empty = .done g s1 ∧ g.toBool = true ∧
      g.spImpl_ = some s.impls.length ∧
      s1.impls[s.impls.length]? = some (some (.Chainer Functor.empty Functor.empty)) ∧
      ∀ args : List V, Functor.call (fuel + 2) s1 g args = .undefined) := by
  obtain ⟨h, objs, w⟩ := s
  refine ⟨?_, ?_, ?_, ?_⟩
  · obtain ⟨a, ext, fq, hb, _, _⟩ := bindFirst_sim hf hfuel objs w b
    exact ⟨⟨some a⟩, _, hb, rfl⟩
  · obtain ⟨a, ext, fq, hc, _, _⟩ := chain_sim h1 h2 hfuel1 hfuel2 objs w
    exact ⟨⟨some a⟩, _, hc, rfl⟩
  · refine ⟨⟨some h.length⟩, ⟨h ++ [some (.BinderFirst Functor.empty b)], objs, w⟩, ?_, rfl,
      rfl, List.getElem?_concat_length _ _, rfl, ?_⟩
    · simp [BindFirst, Functor.copy, Functor.empty, Clone, Store.alloc, Functor.ofAutoPtr]
    · intro args
      simp [Functor.call, Functor.empty]
  · refine ⟨⟨some h.length⟩, ⟨h ++ [some (.Chainer Functor.empty Functor.empty)], objs, w⟩,
      ?_, rfl, rfl, List.getElem?_concat_length _ _, ?_⟩
    · simp [Chain, Functor.copy, Functor.empty, Clone, Store.alloc, Functor.ofAutoPtr]
    · intro args
      simp [Functor.call, Functor.empty]

/-- Witness for C24: in the store of `addProgram`, binding 5 to a
default-constructed functor gives a functor that tests true and whose call is
undefined. -/
theorem composed_never_empty_witness :
    ((∃ g s1, BindFirst 2 addProgram.2 addProgram.1 (5 : Int) = .done g s1 ∧
        g.toBool = true) ∧
    (∃ g s1, Chain 2 addProgram.2 addProgram.1 Functor.empty = .done g s1 ∧
      g.toBool = true) ∧
    (∃ g s1, BindFirst (2 + 1) addProgram.2 Functor.empty (5 : Int) = .done g s1 ∧
      g.toBool = true ∧ g.spImpl_ = some addProgram.2.impls.length ∧
      s1.impls[addProgram.2.impls.length]? = some (some (.BinderFirst Functor.empty 5)) ∧
      Functor.empty.toBool = false ∧
      ∀ args : List Int, Functor.call (2 + 2) s1 g args = .undefined) ∧
    (∃ g s1, Chain (2 + 1) addProgram.2 Functor.empty Functor.empty = .done g s1 ∧
      g.toBool = true ∧ g.spImpl_ = some addProgram.2.impls.length ∧
      s1.impls[addProgram.2.impls.length]? =
        some (some (.Chainer Functor.empty Functor.empty)) ∧
      ∀ args : List Int, Functor.call (2 + 2) s1 g args = .undefined)) ∧
    ((BindFirst 3 addProgram.2 Functor.empty (5 : Int)).bind
      (fun g s1 => Functor.call 4 s1 g [3])).observe = .undefined :=
  ⟨composed_never_empty addProgram.2 addProgram.1 addProgram.1 Functor.empty
    (.FunctorHandler add) (.FunctorHandler add) .null [0] [0] [] 2 5
    (Owns.FunctorHandler rfl) (Owns.FunctorHandler rfl) Owns.null
    (by decide) (by decide) (by decide), rfl⟩

end Claims

end ModernCDesign
